import Mathlib

/-!
# Distributed point functions: a shallow embedding

This file embeds the distributed point function (DPF) library of
`dpf/distributed_point_function.h` in Lean 4.  The repository provides the
class declaration and its documentation; the method bodies are not part of
the sources, so the algorithmic definitions below are modelled from the
specification (its §3, §4.1–§4.5, §6–§8), with each such definition marked
`Modelled from the spec` in its doc comment.

Modelling conventions:
* 128-bit blocks are `Nat` with `Nat.xor`; machine arithmetic on output
  elements of width `b` is `Nat` with explicit `% 2 ^ b`.
* The three pseudorandom generators are abstract functions `Nat → Nat`
  (the spec treats the PRG construction as an external collaborator);
  all correctness theorems hold for arbitrary such functions.
* The injected randomness of key generation (the two initial seeds) is
  passed explicitly.
* Fallible operations return `Except DpfError`.
-/

deriving instance DecidableEq for Except

/-- Parameters of one hierarchy level: `log_domain_size` and
`element_bitsize`, as in the `DpfParameters` record of the spec (§6). -/
structure DpfParameters where
  log_domain_size : Nat
  element_bitsize : Nat
  deriving DecidableEq, Repr, Inhabited

/-- Error kinds used by the library operations (spec §7).  Only the kinds
reachable in the embedded operations are modelled. -/
inductive DpfError where
  | invalidArgument
  | failedPrecondition
  deriving DecidableEq, Repr, Inhabited

/-- Element bitsizes supported by the library (spec §4.1). -/
def validBitsizes : List Nat := [1, 2, 4, 8, 16, 32, 64, 128]

/-- Per-entry validation: `log_domain_size ∈ [0, 128]` and
`element_bitsize ∈ {1,2,4,8,16,32,64,128}` (spec §4.1; lower bounds are
automatic for `Nat`). -/
def paramOk (p : DpfParameters) : Bool :=
  decide (p.log_domain_size ≤ 128) && validBitsizes.contains p.element_bitsize

/-- Pairwise validation along the parameter list: `log_domain_size`
strictly increasing, `element_bitsize` non-decreasing (spec §4.1). -/
def chainOk : List DpfParameters → Bool
  | [] => true
  | [_] => true
  | p :: q :: rest =>
      decide (p.log_domain_size < q.log_domain_size) &&
      decide (p.element_bitsize ≤ q.element_bitsize) &&
      chainOk (q :: rest)

/-- Base-2 floor logarithm computed with explicit fuel (structural
recursion, so that proofs can evaluate it); `log2Bounded 8 n` is exact for
all `n < 2 ^ 8`, which covers every block-capacity argument below. -/
def log2Bounded : Nat → Nat → Nat
  | 0, _ => 0
  | fuel + 1, n => if 2 ≤ n then log2Bounded fuel (n / 2) + 1 else 0

/-- Packing factor `p_i = floor(log2(128 / b_i))`: the number of domain
bits whose outputs fit into a single 128-bit block at element bitsize `b`
(spec §4.1). -/
def packingFactor (b : Nat) : Nat := log2Bounded 8 (128 / b)

/-- Modelled from the spec: the tree level bound to each hierarchy level
(spec §3 and §4.1; the method body computing `hierarchy_to_tree_` is not in
the sources).  An intermediate hierarchy is evaluated at tree depth equal to
its `log_domain_size`, so that the partial evaluations stored for the next
call are keyed one-to-one by full domain points of that level (spec §3 and
§4.4 step 5).  Only the last level's tree span is collapsed by its packing
factor, per §3: `tree_levels_needed` equals the log domain size of the last
level unless the last level's output can be packed; the clamp to one level
below the previous binding keeps the bindings strictly increasing. -/
def hierarchyToTreeList (params : List DpfParameters) : List Nat :=
  (List.range params.length).map (fun i =>
    let p := params.getD i default
    if i + 1 < params.length then p.log_domain_size
    else
      max (if i = 0 then 0 else (params.getD (i - 1) default).log_domain_size + 1)
        (p.log_domain_size - packingFactor p.element_bitsize))

/-- A validated DPF instance: the fields mirror `parameters_`,
`tree_levels_needed_` and `hierarchy_to_tree_` of the class (header lines
192–205). -/
structure Dpf where
  parameters : List DpfParameters
  tree_levels_needed : Nat
  hierarchy_to_tree : List Nat
  deriving DecidableEq, Repr, Inhabited

/-- Lookup in the inverse direction, mirroring the `tree_to_hierarchy_`
map (header lines 200–202): the hierarchy level bound to a given tree
level, if any. -/
def tree_to_hierarchy (dpf : Dpf) (t : Nat) : Option Nat :=
  dpf.hierarchy_to_tree.findIdx? (fun d => d == t)

/-- Modelled from the spec: `CreateIncremental` (header lines 50–57; the
method body is not in the sources).  Validates the parameter list per §4.1
and constructs the derived tree mapping. -/
def CreateIncremental (params : List DpfParameters) : Except DpfError Dpf :=
  if params.isEmpty then .error .invalidArgument
  else if !(params.all paramOk && chainOk params) then .error .invalidArgument
  else .ok ⟨params, (hierarchyToTreeList params).getD (params.length - 1) 0,
    hierarchyToTreeList params⟩

/-- Declarative form of the five validation rules of spec §4.1, used to
state the parameter-validation claim. -/
def ParamsValid (params : List DpfParameters) : Prop :=
  params ≠ [] ∧
  (∀ i < params.length, (params.getD i default).log_domain_size ≤ 128) ∧
  (∀ i < params.length - 1,
    (params.getD i default).log_domain_size <
      (params.getD (i + 1) default).log_domain_size) ∧
  (∀ i < params.length, (params.getD i default).element_bitsize ∈ validBitsizes) ∧
  (∀ i < params.length - 1,
    (params.getD i default).element_bitsize ≤
      (params.getD (i + 1) default).element_bitsize)

instance (params : List DpfParameters) : Decidable (ParamsValid params) := by
  unfold ParamsValid
  infer_instance

/-- Log domain size of hierarchy level `i`. -/
def ldsAt (dpf : Dpf) (i : Nat) : Nat := (dpf.parameters.getD i default).log_domain_size

/-- Element bitsize of hierarchy level `i`. -/
def ebsAt (dpf : Dpf) (i : Nat) : Nat := (dpf.parameters.getD i default).element_bitsize

/-- Log domain size of the last (largest) hierarchy level. -/
def lastLds (dpf : Dpf) : Nat := ldsAt dpf (dpf.parameters.length - 1)

/-- Tree depth at which hierarchy level `i` is evaluated. -/
def depthAt (dpf : Dpf) (i : Nat) : Nat := dpf.hierarchy_to_tree.getD i 0

/-- Number of low-order bits of a level-`i` domain point that select a slot
inside the value block of its tree node (spec §4.4 step 4, §4.5). -/
def residueAt (dpf : Dpf) (i : Nat) : Nat := ldsAt dpf i - depthAt dpf i

/-- Tree depth from which the expansion of hierarchy level `i` starts:
the previous level's binding, or the root for the first level. -/
def startDepth (dpf : Dpf) (i : Nat) : Nat := if i = 0 then 0 else depthAt dpf (i - 1)

/-- Log domain size of the hierarchy level before `i` (0 for `i = 0`);
prefixes supplied to `EvaluateNext` at level `i` live in this domain
(header lines 86–88). -/
def prevLds (dpf : Dpf) (i : Nat) : Nat := if i = 0 then 0 else ldsAt dpf (i - 1)

/-- The length-`L_i` leading portion of `alpha`, i.e. the unique level-`i`
domain point whose bits are a leading portion of `alpha`'s. -/
def alphaPrefixAt (dpf : Dpf) (alpha i : Nat) : Nat :=
  alpha / 2 ^ (lastLds dpf - ldsAt dpf i)

/-- The three pseudorandom generators (`prg_left_`, `prg_right_`,
`prg_value_`, header lines 207–211), abstracted as functions on blocks. -/
structure Prgs where
  left : Nat → Nat
  right : Nat → Nat
  value : Nat → Nat

/-- Least-significant (control) bit of a block (spec §2 component 1). -/
def lsb (n : Nat) : Bool := decide (n % 2 = 1)

/-- One correction word, as in the record schema of spec §6: a seed block,
two control-bit corrections, and an optional packed value correction at
hierarchy boundaries. -/
structure CorrectionWord where
  seed : Nat
  control_left : Bool
  control_right : Bool
  value_correction : Option Nat
  deriving DecidableEq, Repr, Inhabited

/-- A DPF key, as in the record schema of spec §6. -/
structure DpfKey where
  party_bit : Bool
  seed : Nat
  control_bit : Bool
  correction_words : List CorrectionWord
  last_level_value_correction : Nat
  deriving DecidableEq, Repr, Inhabited

/-- Modelled from the spec: one step of the corrected tree expansion for a
single party (spec §4.3 steps 2 and 4, §4.4 step 3).  From state
`(seed, control)`, expand with `prg_left` or `prg_right` according to the
traversal `bit`, XOR the seed correction into the expanded block iff the
current control bit is set, and XOR the matching control-bit correction
into the new control bit (the expanded block's LSB) iff the current
control bit is set. -/
def stepSeed (prgs : Prgs) (cw : CorrectionWord) (bit : Bool) (st : Nat × Bool) :
    Nat × Bool :=
  let e := if bit then prgs.right st.1 else prgs.left st.1
  (if st.2 then Nat.xor e cw.seed else e,
   Bool.xor (lsb e) (st.2 && (if bit then cw.control_right else cw.control_left)))

/-- The stepping-relevant core of a correction word: its seed and the two
control-bit corrections (the value correction plays no role in tree
expansion). -/
def cwCore (cw : CorrectionWord) : Nat × Bool × Bool :=
  (cw.seed, cw.control_left, cw.control_right)

/-- Modelled from the spec: the seed and control-bit corrections of one
tree level (spec §4.3 steps 2–3).  The seed correction equalises the two
parties' expansions on the side *not* taken by `alpha` (`aBit`); the
control corrections are `cw_L = cbL_A ⊕ cbL_B ⊕ α_t ⊕ 1` and
`cw_R = cbR_A ⊕ cbR_B ⊕ α_t`. -/
def mkCw (prgs : Prgs) (aBit : Bool) (stA stB : Nat × Bool) : CorrectionWord :=
  { seed := if aBit then Nat.xor (prgs.left stA.1) (prgs.left stB.1)
      else Nat.xor (prgs.right stA.1) (prgs.right stB.1)
    control_left := Bool.xor (lsb (prgs.left stA.1))
      (Bool.xor (lsb (prgs.left stB.1)) (Bool.xor aBit true))
    control_right := Bool.xor (lsb (prgs.right stA.1))
      (Bool.xor (lsb (prgs.right stB.1)) aBit)
    value_correction := none }

/-- Traversal bit of `alpha` at tree depth `t` (MSB-first within the
`lastL`-bit domain, spec §4.3 step 1). -/
def aBitAt (alpha lastL t : Nat) : Bool := lsb (alpha / 2 ^ (lastL - 1 - t))

/-- Modelled from the spec: both parties' states on the `alpha`-path after
`t` tree levels of key generation (spec §4.3).  Party A starts with control
bit 0, party B with control bit 1. -/
def genPair (prgs : Prgs) (alpha lastL s0A s0B : Nat) : Nat → ((Nat × Bool) × (Nat × Bool))
  | 0 => ((s0A, false), (s0B, true))
  | t + 1 =>
    let st := genPair prgs alpha lastL s0A s0B t
    let cw := mkCw prgs (aBitAt alpha lastL t) st.1 st.2
    (stepSeed prgs cw (aBitAt alpha lastL t) st.1,
     stepSeed prgs cw (aBitAt alpha lastL t) st.2)

/-- Reading slot `s` of block `blk` at element bitsize `b`: bits
`[s*b, (s+1)*b)` as an unsigned integer (spec §4.5). -/
def extractSlot (b s blk : Nat) : Nat := blk / 2 ^ (b * s) % 2 ^ b

/-- Packing a list of `b`-bit values into a block, slot 0 in the lowest
bits (spec §4.3 value packing, §4.5). -/
def packSlots (b : Nat) (l : List Nat) : Nat :=
  l.foldr (fun v acc => v % 2 ^ b + 2 ^ b * acc) 0

/-- Modelled from the spec: the packed value correction for one hierarchy
boundary (spec §4.3 step 5; header lines 133–142 describe the
`ComputeValueCorrection` helper).  Slot `slotAlpha` receives `beta`, all
other slots 0; each slot `s` is corrected additively by
`-(value_A)_s + (value_B)_s` mod `2^b` so that applying the correction to
the on-path expanded values yields additive shares, and the whole block is
negated when party B carries the control bit 1 (`invert`). -/
def ComputeValueCorrection (prgs : Prgs) (b numSlots slotAlpha beta sA sB : Nat)
    (invert : Bool) : Nat :=
  packSlots b ((List.range numSlots).map (fun s =>
    let vA := extractSlot b s (prgs.value sA)
    let vB := extractSlot b s (prgs.value sB)
    let base := ((if s = slotAlpha then beta else 0) + (2 ^ b - vA) + vB) % 2 ^ b
    if invert then (2 ^ b - base) % 2 ^ b else base))

/-- Value correction for hierarchy level `i`, computed from the two
parties' on-path states `st` at tree depth `depthAt dpf i`. -/
def vcFor (dpf : Dpf) (prgs : Prgs) (alpha : Nat) (betas : List Nat) (i : Nat)
    (st : (Nat × Bool) × (Nat × Bool)) : Nat :=
  ComputeValueCorrection prgs (ebsAt dpf i) (2 ^ residueAt dpf i)
    (alphaPrefixAt dpf alpha i % 2 ^ residueAt dpf i)
    (betas.getD i 0) st.1.1 st.2.1 st.2.2

/-- Modelled from the spec: the correction-word list produced by key
generation (spec §4.3 step 6; header lines 144–152 describe the
`GenerateNext` helper writing one correction word per tree level).  The
correction word of tree level `t` carries the value correction of the
hierarchy level bound to `t`, if any; the last hierarchy level is bound to
depth `tree_levels_needed` and its value correction is stored separately. -/
def genCws (dpf : Dpf) (prgs : Prgs) (alpha : Nat) (betas : List Nat) (s0A s0B : Nat) :
    List CorrectionWord :=
  (List.range dpf.tree_levels_needed).map (fun t =>
    let st := genPair prgs alpha (lastLds dpf) s0A s0B t
    { mkCw prgs (aBitAt alpha (lastLds dpf) t) st.1 st.2 with
      value_correction :=
        (tree_to_hierarchy dpf t).map (fun i => vcFor dpf prgs alpha betas i st) })

/-- Modelled from the spec: `GenerateKeysIncremental` (header lines 70–77;
the method body is not in the sources).  Pre-checks `|β̄| = L`,
`α < 2^{L_{L-1}}` and `β_i < 2^{b_i}` (spec §4.3), then produces the two
keys: identical correction words and last-level value correction, distinct
seeds, party bits 0/1, initial control bits equal to the party bits.  The
two uniformly random initial seeds are passed in explicitly (spec §5,
injected randomness). -/
def GenerateKeysIncremental (dpf : Dpf) (prgs : Prgs) (s0A s0B alpha : Nat)
    (betas : List Nat) : Except DpfError (DpfKey × DpfKey) :=
  if betas.length ≠ dpf.parameters.length then .error .invalidArgument
  else if 2 ^ lastLds dpf ≤ alpha then .error .invalidArgument
  else if (List.range dpf.parameters.length).any
      (fun i => decide (2 ^ ebsAt dpf i ≤ betas.getD i 0)) then .error .invalidArgument
  else
    let cws := genCws dpf prgs alpha betas s0A s0B
    let fin := genPair prgs alpha (lastLds dpf) s0A s0B dpf.tree_levels_needed
    let llvc := vcFor dpf prgs alpha betas (dpf.parameters.length - 1) fin
    .ok (⟨false, s0A, false, cws, llvc⟩, ⟨true, s0B, true, cws, llvc⟩)

/-- Modelled from the spec: single-level `GenerateKeys` (header lines
63–68).  Fails with `InvalidArgument` on an incremental DPF with more than
one parameter set, and otherwise delegates to the incremental key
generation with the one-element value vector. -/
def GenerateKeys (dpf : Dpf) (prgs : Prgs) (s0A s0B alpha beta : Nat) :
    Except DpfError (DpfKey × DpfKey) :=
  if dpf.parameters.length ≠ 1 then .error .invalidArgument
  else GenerateKeysIncremental dpf prgs s0A s0B alpha [beta]

/-- One stored partial evaluation: a tree node (identified by its prefix
value at the stored depth) together with the party's seed and control bit
there (spec §3, §6 `EvaluationContext`). -/
structure PartialEval where
  node : Nat
  seed : Nat
  control : Bool
  deriving DecidableEq, Repr, Inhabited

/-- Evaluation context (spec §3, §6): the key being evaluated, the last
hierarchy level whose output was produced (-1 before the first call), and
the stored partial evaluations.  The mirrored parameter list of the record
schema is omitted; contexts are always used with the DPF that created
them. -/
structure EvaluationContext where
  key : DpfKey
  hierarchy_level : Int
  storedEvals : List PartialEval
  deriving DecidableEq, Repr, Inhabited

/-- Modelled from the spec: `CreateEvaluationContext` (header lines
79–84).  Validates the key's correction-word layout against the DPF
(count matches `tree_levels_needed`, value corrections present exactly at
hierarchy boundaries), then starts at hierarchy level -1 with the root
partial evaluation (empty prefix ↦ initial seed and control bit). -/
def CreateEvaluationContext (dpf : Dpf) (key : DpfKey) :
    Except DpfError EvaluationContext :=
  if key.correction_words.length ≠ dpf.tree_levels_needed then .error .invalidArgument
  else if !((List.range dpf.tree_levels_needed).all (fun t =>
      ((key.correction_words.getD t default).value_correction).isSome ==
        (tree_to_hierarchy dpf t).isSome)) then .error .invalidArgument
  else .ok ⟨key, -1, [⟨0, key.seed, key.control_bit⟩]⟩

/-- Modelled from the spec: full corrected subtree expansion of one
partial evaluation through a list of correction words, children enumerated
left then right (spec §4.4 step 3; header lines 166–177). -/
def expandNode (prgs : Prgs) : List CorrectionWord → (Nat × Bool) → List (Nat × Bool)
  | [], st => [st]
  | cw :: rest, st =>
      expandNode prgs rest (stepSeed prgs cw false st) ++
      expandNode prgs rest (stepSeed prgs cw true st)

/-- Seeds and control bits resulting from a DPF expansion (header lines
158–164). -/
structure DpfExpansion where
  seeds : List Nat
  control_bits : List Bool
  deriving DecidableEq, Repr, Inhabited

/-- Modelled from the spec: `ExpandSeeds` (header lines 166–177): each
partial evaluation is subjected to a full subtree expansion of
`cws.length` levels and the concatenated result is returned. -/
def ExpandSeeds (prgs : Prgs) (pe : DpfExpansion) (cws : List CorrectionWord) :
    DpfExpansion :=
  let leaves := (pe.seeds.zip pe.control_bits).flatMap (expandNode prgs cws)
  ⟨leaves.map Prod.fst, leaves.map Prod.snd⟩

/-- Look up the stored partial evaluations for the given tree nodes, in
order; `none` if any is missing (spec §4.4 step 2; header lines 187–188). -/
def selectPE (stored : List PartialEval) : List Nat → Option (List (Nat × Bool))
  | [] => some []
  | p :: ps =>
    match stored.find? (fun pe => pe.node == p), selectPE stored ps with
    | some pe, some rest => some ((pe.seed, pe.control) :: rest)
    | _, _ => none

/-- The packed value-correction block used when producing outputs of
hierarchy level `i`: from the correction word at the level's tree depth for
intermediate levels, from `last_level_value_correction` for the last level
(spec §4.3 step 6, §6). -/
def outputBlockCorrection (dpf : Dpf) (key : DpfKey) (i : Nat) : Nat :=
  if i + 1 < dpf.parameters.length then
    ((key.correction_words.getD (depthAt dpf i) default).value_correction).getD 0
  else key.last_level_value_correction

/-- Modelled from the spec: the output value of one party at hierarchy `i`
for the slot `slot` of the leaf state `st` (spec §4.4 step 4): apply
`prg_value`, add the slot of the value-correction block iff the control
bit is set (additively, mod `2^b`), and negate for party B. -/
def outputValue (dpf : Dpf) (prgs : Prgs) (key : DpfKey) (i slot : Nat)
    (st : Nat × Bool) : Nat :=
  let b := ebsAt dpf i
  let raw := (extractSlot b slot (prgs.value st.1) +
      if st.2 then extractSlot b slot (outputBlockCorrection dpf key i) else 0) % 2 ^ b
  if key.party_bit then (2 ^ b - raw) % 2 ^ b else raw

/-- The effective list of tree nodes expanded by a call at hierarchy level
`i`: the root for the first call, the supplied prefixes otherwise. -/
def effPfxs (i : Nat) (pfxs : List Nat) : List Nat := if i = 0 then [0] else pfxs

/-- Modelled from the spec: `EvaluateNext` (header lines 86–121; the
method body is not in the sources).  The error checks follow §4.4's
preconditions and §7's error kinds, in the order the header documents
them; on success the outputs for all level-`i` extensions of each prefix
are returned, the context's hierarchy level is incremented, and the
expanded seeds are stored back unless this was the last level.  The
context is returned unchanged alongside any error (spec §7, atomicity).
`bitsizeT` stands for the bit width of the template parameter `T`. -/
def EvaluateNext (dpf : Dpf) (prgs : Prgs) (bitsizeT : Nat) (pfxs : List Nat)
    (ctx : EvaluationContext) : Except DpfError (List Nat) × EvaluationContext :=
  let L := dpf.parameters.length
  if (L : Int) ≤ ctx.hierarchy_level + 1 then (.error .failedPrecondition, ctx)
  else if ctx.hierarchy_level = -1 ∧ pfxs ≠ [] then (.error .failedPrecondition, ctx)
  else
    let i : Nat := (ctx.hierarchy_level + 1).toNat
    if bitsizeT ≠ ebsAt dpf i then (.error .invalidArgument, ctx)
    else if pfxs.any (fun p => decide (2 ^ prevLds dpf i ≤ p)) then
      (.error .invalidArgument, ctx)
    else
      match selectPE ctx.storedEvals (effPfxs i pfxs) with
      | none => (.error .invalidArgument, ctx)
      | some sel =>
        let cwsSlice := (ctx.key.correction_words.drop (startDepth dpf i)).take
          (depthAt dpf i - startDepth dpf i)
        let leaves := sel.flatMap (expandNode prgs cwsSlice)
        let outs := leaves.flatMap (fun st =>
          (List.range (2 ^ residueAt dpf i)).map (fun s =>
            outputValue dpf prgs ctx.key i s st))
        let newStored :=
          if i + 1 < L then
            ((effPfxs i pfxs).zip sel).flatMap (fun ps =>
              ((expandNode prgs cwsSlice ps.2).enum).map (fun em =>
                ⟨ps.1 * 2 ^ (depthAt dpf i - startDepth dpf i) + em.1,
                  em.2.1, em.2.2⟩))
          else []
        (.ok outs,
         { ctx with hierarchy_level := ctx.hierarchy_level + 1,
                    storedEvals := newStored })

/-- Run a sequence of `EvaluateNext` calls (one per hierarchy level, with
the matching output bitsize) on an existing context, failing if any call
fails. -/
def runCtxGo (dpf : Dpf) (prgs : Prgs) :
    List (List Nat) → EvaluationContext → Except DpfError EvaluationContext
  | [], ctx => .ok ctx
  | ps :: rest, ctx =>
    match EvaluateNext dpf prgs (ebsAt dpf (ctx.hierarchy_level + 1).toNat) ps ctx with
    | (.ok _, ctx') => runCtxGo dpf prgs rest ctx'
    | (.error e, _) => .error e

/-- Create a context for `key` and run a sequence of `EvaluateNext` calls
on it. -/
def runCtx (dpf : Dpf) (prgs : Prgs) (key : DpfKey) (seq : List (List Nat)) :
    Except DpfError EvaluationContext :=
  (CreateEvaluationContext dpf key).bind (runCtxGo dpf prgs seq)

/-- The outputs of the last call of a call sequence: run all calls but the
last, then return the output vector of the last call. -/
def runOutputs (dpf : Dpf) (prgs : Prgs) (key : DpfKey) (seq : List (List Nat)) :
    Except DpfError (List Nat) :=
  (runCtx dpf prgs key seq.dropLast).bind (fun ctx =>
    (EvaluateNext dpf prgs (ebsAt dpf (ctx.hierarchy_level + 1).toNat)
      (seq.getLastD []) ctx).1)

/-- One party's state (seed and control bit) at the tree node of depth `t`
whose root-to-node path is the `t`-bit big-endian representation of `v`,
obtained by walking the corrected expansion from the key's root state
(spec §4.4 step 3).  The node of depth `t + 1` and value `v` is reached
from its parent (depth `t`, value `v / 2`) by the traversal bit `v % 2`. -/
def nodeState (prgs : Prgs) (key : DpfKey) : Nat → Nat → Nat × Bool
  | 0, _ => (key.seed, key.control_bit)
  | t + 1, v =>
    stepSeed prgs (key.correction_words.getD t default) (lsb v)
      (nodeState prgs key t (v / 2))

/-- The single-point evaluation of one key at hierarchy level `i` and
level-`i` domain point `x`: walk the corrected tree to the level's depth
along `x`'s leading bits and produce the output value of `x`'s slot.  The
output characterisation lemma below shows each entry of a successful
`EvaluateNext` output vector equals `evalPoint` at the point it covers. -/
def evalPoint (dpf : Dpf) (prgs : Prgs) (key : DpfKey) : Nat → Nat → Nat
  | i, x =>
    outputValue dpf prgs key i (x % 2 ^ residueAt dpf i)
      (nodeState prgs key (depthAt dpf i) (x / 2 ^ residueAt dpf i))

/-- The level-`i` domain point covered by entry `j` of the output vector
of an `EvaluateNext` call that was given the prefixes `pfxs`: the
`j / 2^{L_i - L_{i-1}}`-th prefix extended by the `j % 2^{L_i - L_{i-1}}`-th
of its extensions (spec §4.4 steps 3–4; all of level 0's domain on the
first call). -/
def pointOf (dpf : Dpf) (pfxs : List Nat) (i j : Nat) : Nat :=
  (effPfxs i pfxs).getD (j / 2 ^ (ldsAt dpf i - prevLds dpf i)) 0 *
    2 ^ (ldsAt dpf i - prevLds dpf i) + j % 2 ^ (ldsAt dpf i - prevLds dpf i)

/-- A concrete PRG triple used by the witnesses below (arbitrary
functions; the theorems hold for any). -/
def exPrgs : Prgs := ⟨fun s => 3 * s + 5, fun s => 5 * s + 7, fun s => 7 * s + 11⟩

/-- The concrete two-level DPF `[(1,8),(2,8)]` used by the witnesses. -/
def exDpf : Dpf := ⟨[⟨1, 8⟩, ⟨2, 8⟩], 2, [1, 2]⟩

/-- Party A's key for `exDpf`, `exPrgs`, seeds 12/23, `alpha = 2`,
`betas = [3, 7]`. -/
def exKeyA : DpfKey :=
  ⟨false, 12, false, [⟨99, true, false, none⟩, ⟨466, true, false, some 221⟩], 115⟩

/-- Party B's key for the same instance. -/
def exKeyB : DpfKey :=
  ⟨true, 23, true, [⟨99, true, false, none⟩, ⟨466, true, false, some 221⟩], 115⟩

/-- Party A's key for `exDpf`, `exPrgs`, seeds 12/23, `alpha = 2`, and the
constant value vector `betas = [7, 7]`. -/
def exKeyA7 : DpfKey :=
  ⟨false, 12, false, [⟨99, true, false, none⟩, ⟨466, true, false, some 225⟩], 115⟩

/-- Party B's key for the `betas = [7, 7]` instance. -/
def exKeyB7 : DpfKey :=
  ⟨true, 23, true, [⟨99, true, false, none⟩, ⟨466, true, false, some 225⟩], 115⟩

/-! ## General helper lemmas -/

theorem getD_map_range {α : Type} (f : Nat → α) (n t : Nat) (h : t < n) (d : α) :
    ((List.range n).map f).getD t d = f t := by
  simp [List.getD_eq_getElem?_getD, List.getElem?_map, List.getElem?_range h]

theorem getD_cons_succ {α : Type} (a : α) (l : List α) (n : Nat) (d : α) :
    (a :: l).getD (n + 1) d = l.getD n d := rfl

theorem forall_getD_iff_mem {α : Type} (l : List α) (P : α → Prop) (d : α) :
    (∀ i < l.length, P (l.getD i d)) ↔ (∀ x ∈ l, P x) := by
  constructor
  · intro h x hx
    obtain ⟨i, hi, rfl⟩ := List.mem_iff_getElem.mp hx
    have := h i hi
    rwa [List.getD_eq_getElem?_getD, List.getElem?_eq_getElem hi] at this
  · intro h i hi
    rw [List.getD_eq_getElem?_getD, List.getElem?_eq_getElem hi]
    exact h _ (List.getElem_mem hi)

/-! ## C4: parameter validation -/

theorem chainOk_iff (l : List DpfParameters) :
    chainOk l = true ↔
      ∀ i < l.length - 1,
        (l.getD i default).log_domain_size < (l.getD (i + 1) default).log_domain_size ∧
        (l.getD i default).element_bitsize ≤ (l.getD (i + 1) default).element_bitsize := by
  induction l with
  | nil => simp [chainOk]
  | cons p rest ih =>
    cases rest with
    | nil => simp [chainOk]
    | cons q rest' =>
      rw [show chainOk (p :: q :: rest') =
        (decide (p.log_domain_size < q.log_domain_size) &&
         decide (p.element_bitsize ≤ q.element_bitsize) &&
         chainOk (q :: rest')) from rfl]
      simp only [Bool.and_eq_true, decide_eq_true_eq]
      rw [ih]
      constructor
      · rintro ⟨⟨h1, h2⟩, h3⟩ i hi
        cases i with
        | zero => exact ⟨h1, h2⟩
        | succ j =>
          have hj : j < (q :: rest').length - 1 := by
            simpa [Nat.lt_succ_iff] using hi
          simpa [getD_cons_succ] using h3 j hj
      · intro h
        refine ⟨?_, fun i hi => ?_⟩
        · have := h 0 (by simp)
          simpa using this
        · have := h (i + 1) (by simpa [Nat.succ_lt_succ_iff] using hi)
          simpa [getD_cons_succ] using this

theorem allParamOk_iff (l : List DpfParameters) :
    l.all paramOk = true ↔
      (∀ i < l.length, (l.getD i default).log_domain_size ≤ 128) ∧
      (∀ i < l.length, (l.getD i default).element_bitsize ∈ validBitsizes) := by
  rw [List.all_eq_true]
  constructor
  · intro h
    constructor
    · refine (forall_getD_iff_mem l (fun x => x.log_domain_size ≤ 128) default).mpr ?_
      intro x hx
      have := h x hx
      simp only [paramOk, Bool.and_eq_true, decide_eq_true_eq] at this
      exact this.1
    · refine (forall_getD_iff_mem l (fun x => x.element_bitsize ∈ validBitsizes) default).mpr ?_
      intro x hx
      have := h x hx
      simp only [paramOk, Bool.and_eq_true, decide_eq_true_eq,
        List.elem_iff] at this
      simpa using this.2
  · rintro ⟨h1, h2⟩ x hx
    replace h1 := (forall_getD_iff_mem l (fun x => x.log_domain_size ≤ 128) default).mp h1
    replace h2 :=
      (forall_getD_iff_mem l (fun x => x.element_bitsize ∈ validBitsizes) default).mp h2
    simp only [paramOk, Bool.and_eq_true, decide_eq_true_eq, List.elem_iff]
    exact ⟨h1 x hx, by simpa using h2 x hx⟩

/-- Characterisation of `CreateIncremental`'s result, used both by the
parameter-validation claim and by the inversion lemma below. -/
theorem createInc_error_iff (params : List DpfParameters) :
    (CreateIncremental params = .error .invalidArgument ↔ ¬ ParamsValid params) ∧
    (ParamsValid params → (CreateIncremental params).isOk = true) := by
  have hmain : CreateIncremental params = .error .invalidArgument ↔ ¬ ParamsValid params := by
    unfold CreateIncremental ParamsValid
    rcases params with _ | ⟨p, rest⟩
    · simp
    · simp only [List.isEmpty_cons, Bool.false_eq_true, if_false, ne_eq,
        reduceCtorEq, not_false_eq_true, true_and]
      by_cases hall : (p :: rest).all paramOk = true
      · by_cases hchain : chainOk (p :: rest) = true
        · rw [if_neg (by simp [hall, hchain])]
          simp only [reduceCtorEq, false_iff, not_not]
          rw [allParamOk_iff] at hall
          rw [chainOk_iff] at hchain
          exact ⟨hall.1, fun i hi => (hchain i hi).1, hall.2, fun i hi => (hchain i hi).2⟩
        · rw [if_pos (by simp [hchain])]
          simp only [true_iff]
          intro hv
          apply hchain
          rw [chainOk_iff]
          exact fun i hi => ⟨hv.2.1 i hi, hv.2.2.2 i hi⟩
      · rw [if_pos (by simp [hall])]
        simp only [true_iff]
        intro hv
        apply hall
        rw [allParamOk_iff]
        exact ⟨hv.1, hv.2.2.1⟩
  refine ⟨hmain, fun hv => ?_⟩
  have hne : params.isEmpty = false := by
    cases params with
    | nil => exact absurd rfl hv.1
    | cons p rest => rfl
  have hall : params.all paramOk = true := (allParamOk_iff params).mpr ⟨hv.2.1, hv.2.2.2.1⟩
  have hchain : chainOk params = true :=
    (chainOk_iff params).mpr (fun i hi => ⟨hv.2.2.1 i hi, hv.2.2.2.2 i hi⟩)
  unfold CreateIncremental
  rw [if_neg (by simp [hne]), if_neg (by simp [hall, hchain])]
  rfl

/-- C4.  Parameter validation: `CreateIncremental` returns
`InvalidArgument` exactly when the parameter list violates one of the five
validation rules (non-empty list; every `log_domain_size` in `[0, 128]`;
`log_domain_size` strictly increasing; every `element_bitsize` in
`{1,2,4,8,16,32,64,128}`; `element_bitsize` non-decreasing), and
construction succeeds for every list satisfying all five rules. -/
theorem createIncremental_invalidArgument_iff (params : List DpfParameters) :
    (CreateIncremental params = .error .invalidArgument ↔ ¬ ParamsValid params) ∧
    (ParamsValid params → (CreateIncremental params).isOk = true) :=
  createInc_error_iff params

/-- Witness for C4 at a concrete parameter list (the spec's scenario 5,
`[(4,8),(3,8)]`, a decreasing domain, fails; `[(4,8),(5,8)]` succeeds). -/
theorem createIncremental_invalidArgument_iff_witness :
    ParamsValid [⟨4, 8⟩, ⟨5, 8⟩] ∧
      (CreateIncremental [⟨4, 8⟩, ⟨5, 8⟩]).isOk = true ∧
      CreateIncremental [⟨4, 8⟩, ⟨3, 8⟩] = .error .invalidArgument :=
  ⟨by decide,
   (createIncremental_invalidArgument_iff [⟨4, 8⟩, ⟨5, 8⟩]).2 (by decide),
   (createIncremental_invalidArgument_iff [⟨4, 8⟩, ⟨3, 8⟩]).1.mpr (by decide)⟩

/-! ## C9: tree-mapping invariants -/

theorem createIncremental_ok_inv (params : List DpfParameters) (dpf : Dpf)
    (h : CreateIncremental params = .ok dpf) :
    ParamsValid params ∧ dpf.parameters = params ∧
    dpf.hierarchy_to_tree = hierarchyToTreeList params ∧
    dpf.tree_levels_needed = (hierarchyToTreeList params).getD (params.length - 1) 0 := by
  have hv : ParamsValid params := by
    by_contra hnv
    rw [← (createInc_error_iff params).1] at hnv
    rw [h] at hnv
    exact absurd hnv (by simp)
  refine ⟨hv, ?_⟩
  have hne : params.isEmpty = false := by
    cases params with
    | nil => exact absurd rfl hv.1
    | cons p rest => rfl
  have hall : params.all paramOk = true := (allParamOk_iff params).mpr ⟨hv.2.1, hv.2.2.2.1⟩
  have hchain : chainOk params = true :=
    (chainOk_iff params).mpr (fun i hi => ⟨hv.2.2.1 i hi, hv.2.2.2.2 i hi⟩)
  unfold CreateIncremental at h
  rw [if_neg (by simp [hne]), if_neg (by simp [hall, hchain])] at h
  cases h
  exact ⟨rfl, rfl, rfl⟩

theorem depthAt_eq (params : List DpfParameters) (dpf : Dpf)
    (h : CreateIncremental params = .ok dpf) (i : Nat) (hi : i < params.length) :
    depthAt dpf i =
      if i + 1 < params.length then ldsAt dpf i
      else max (if i = 0 then 0 else ldsAt dpf (i - 1) + 1)
        (ldsAt dpf i - packingFactor (ebsAt dpf i)) := by
  obtain ⟨-, hp, hh, -⟩ := createIncremental_ok_inv params dpf h
  rw [depthAt, hh, hierarchyToTreeList, getD_map_range _ _ _ hi]
  simp only [ldsAt, ebsAt, hp]

theorem lds_lt_adj (params : List DpfParameters) (dpf : Dpf)
    (h : CreateIncremental params = .ok dpf) (i : Nat) (hi : i + 1 < params.length) :
    ldsAt dpf i < ldsAt dpf (i + 1) := by
  obtain ⟨hv, hp, -, -⟩ := createIncremental_ok_inv params dpf h
  have := hv.2.2.1 i (by omega)
  simpa [ldsAt, hp] using this

theorem depthAt_le_lds (params : List DpfParameters) (dpf : Dpf)
    (h : CreateIncremental params = .ok dpf) (i : Nat) (hi : i < params.length) :
    depthAt dpf i ≤ ldsAt dpf i := by
  rw [depthAt_eq params dpf h i hi]
  by_cases hlast : i + 1 < params.length
  · simp [hlast]
  · rw [if_neg hlast]
    apply max_le
    · by_cases h0 : i = 0
      · simp [h0]
      · rw [if_neg h0]
        have : ldsAt dpf (i - 1) < ldsAt dpf i := by
          have := lds_lt_adj params dpf h (i - 1) (by omega)
          rwa [Nat.sub_add_cancel (by omega)] at this
        omega
    · exact Nat.sub_le _ _

theorem depthAt_lt_adj (params : List DpfParameters) (dpf : Dpf)
    (h : CreateIncremental params = .ok dpf) (i : Nat) (hi : i + 1 < params.length) :
    depthAt dpf i < depthAt dpf (i + 1) := by
  rw [depthAt_eq params dpf h i (by omega), if_pos hi,
    depthAt_eq params dpf h (i + 1) hi]
  by_cases hlast : i + 2 < params.length
  · rw [if_pos hlast]
    exact lds_lt_adj params dpf h i hi
  · rw [if_neg (by omega)]
    have : ldsAt dpf i + 1 ≤ max (if i + 1 = 0 then 0 else ldsAt dpf (i + 1 - 1) + 1)
        (ldsAt dpf (i + 1) - packingFactor (ebsAt dpf (i + 1))) := by
      refine le_max_of_le_left ?_
      simp
    omega

theorem depthAt_lt_of_lt (params : List DpfParameters) (dpf : Dpf)
    (h : CreateIncremental params = .ok dpf) (j k : Nat) (hjk : j < k)
    (hk : k < params.length) : depthAt dpf j < depthAt dpf k := by
  induction k with
  | zero => omega
  | succ m ih =>
    rcases Nat.lt_succ_iff_lt_or_eq.mp hjk with hlt | rfl
    · exact (ih hlt (by omega)).trans (depthAt_lt_adj params dpf h m hk)
    · exact depthAt_lt_adj params dpf h j hk

theorem tln_eq_depth_last (params : List DpfParameters) (dpf : Dpf)
    (h : CreateIncremental params = .ok dpf) :
    dpf.tree_levels_needed = depthAt dpf (params.length - 1) := by
  obtain ⟨-, -, hh, ht⟩ := createIncremental_ok_inv params dpf h
  rw [ht, depthAt, hh]

theorem findIdx?_strictMono (l : List Nat) (i : Nat) (hi : i < l.length)
    (hmono : ∀ j, j < i → l.getD j 0 < l.getD i 0) :
    l.findIdx? (fun d => d == l.getD i 0) = some i := by
  induction l generalizing i with
  | nil => simp at hi
  | cons x xs ih =>
    cases i with
    | zero => simp [List.findIdx?]
    | succ j =>
      have hx : ¬ (x = (x :: xs).getD (j + 1) 0) := by
        have := hmono 0 (by omega)
        simp only [List.getD_cons_zero] at this
        omega
      have hrec := ih j (by simpa [Nat.succ_lt_succ_iff] using hi)
        (fun k hk => by
          have := hmono (k + 1) (by omega)
          simpa [getD_cons_succ] using this)
      rw [getD_cons_succ] at hx ⊢
      simp only [List.findIdx?]
      rw [if_neg (by simpa [← List.getD_eq_getElem?_getD] using hx)]
      rw [List.findIdx?_succ, hrec]
      rfl

theorem lds_lt_of_lt (params : List DpfParameters) (dpf : Dpf)
    (h : CreateIncremental params = .ok dpf) (j k : Nat) (hjk : j < k)
    (hk : k < params.length) : ldsAt dpf j < ldsAt dpf k := by
  induction k with
  | zero => omega
  | succ m ih =>
    rcases Nat.lt_succ_iff_lt_or_eq.mp hjk with hlt | rfl
    · exact (ih hlt (by omega)).trans (lds_lt_adj params dpf h m hk)
    · exact lds_lt_adj params dpf h j hk

theorem lds_le_lastLds (params : List DpfParameters) (dpf : Dpf)
    (h : CreateIncremental params = .ok dpf) (i : Nat) (hi : i < params.length) :
    ldsAt dpf i ≤ lastLds dpf := by
  have hplen : dpf.parameters.length = params.length :=
    congrArg List.length (createIncremental_ok_inv params dpf h).2.1
  rw [lastLds, hplen]
  rcases Nat.lt_or_ge i (params.length - 1) with hlt | hge
  · exact le_of_lt (lds_lt_of_lt params dpf h i _ hlt (by omega))
  · have : i = params.length - 1 := by omega
    rw [this]

theorem depthAt_le_tln (params : List DpfParameters) (dpf : Dpf)
    (h : CreateIncremental params = .ok dpf) (i : Nat) (hi : i < params.length) :
    depthAt dpf i ≤ dpf.tree_levels_needed := by
  rw [tln_eq_depth_last params dpf h]
  rcases Nat.lt_or_ge i (params.length - 1) with hlt | hge
  · exact le_of_lt (depthAt_lt_of_lt params dpf h i _ hlt (by omega))
  · have : i = params.length - 1 := by omega
    rw [this]

theorem depthAt_lt_tln (params : List DpfParameters) (dpf : Dpf)
    (h : CreateIncremental params = .ok dpf) (i : Nat) (hi : i + 1 < params.length) :
    depthAt dpf i < dpf.tree_levels_needed := by
  rw [tln_eq_depth_last params dpf h]
  exact depthAt_lt_of_lt params dpf h i _ (by omega) (by omega)

theorem tln_le_lastLds (params : List DpfParameters) (dpf : Dpf)
    (h : CreateIncremental params = .ok dpf) : dpf.tree_levels_needed ≤ lastLds dpf := by
  have hv := (createIncremental_ok_inv params dpf h).1
  have hL : 1 ≤ params.length := by
    cases hpn : params with
    | nil => exact absurd hpn hv.1
    | cons a b => simp
  have hplen : dpf.parameters.length = params.length :=
    congrArg List.length (createIncremental_ok_inv params dpf h).2.1
  rw [tln_eq_depth_last params dpf h, lastLds, hplen]
  exact depthAt_le_lds params dpf h _ (by omega)

theorem tth_depthAt (params : List DpfParameters) (dpf : Dpf)
    (h : CreateIncremental params = .ok dpf) (i : Nat) (hi : i < params.length) :
    tree_to_hierarchy dpf (depthAt dpf i) = some i := by
  obtain ⟨-, -, hh, -⟩ := createIncremental_ok_inv params dpf h
  have hlen : dpf.hierarchy_to_tree.length = params.length := by
    rw [hh, hierarchyToTreeList, List.length_map, List.length_range]
  exact findIdx?_strictMono dpf.hierarchy_to_tree i (by omega)
    (fun j hj => depthAt_lt_of_lt params dpf h j i hj hi)

theorem ebsAt_mem (params : List DpfParameters) (dpf : Dpf)
    (h : CreateIncremental params = .ok dpf) (i : Nat) (hi : i < params.length) :
    ebsAt dpf i ∈ validBitsizes := by
  obtain ⟨hv, hp, -, -⟩ := createIncremental_ok_inv params dpf h
  have := hv.2.2.2.1 i hi
  rwa [ebsAt, hp]

theorem ebsAt_pos (params : List DpfParameters) (dpf : Dpf)
    (h : CreateIncremental params = .ok dpf) (i : Nat) (hi : i < params.length) :
    0 < ebsAt dpf i := by
  have hm := ebsAt_mem params dpf h i hi
  by_contra hc
  have h0 : ebsAt dpf i = 0 := by omega
  rw [h0] at hm
  simp [validBitsizes] at hm

/-- C9.  Tree-mapping bound: for every valid parameter list, the computed
`tree_levels_needed` is at most the last (largest) `log_domain_size` and
equals it when the last level's output cannot be packed (element bitsize
128); `hierarchy_to_tree` is strictly increasing, and `tree_to_hierarchy`
is its inverse. -/
theorem tree_mapping_invariants (params : List DpfParameters) (dpf : Dpf)
    (h : CreateIncremental params = .ok dpf) :
    dpf.tree_levels_needed ≤ lastLds dpf ∧
    (ebsAt dpf (params.length - 1) = 128 → dpf.tree_levels_needed = lastLds dpf) ∧
    (∀ i, i + 1 < params.length → depthAt dpf i < depthAt dpf (i + 1)) ∧
    (∀ i < params.length, tree_to_hierarchy dpf (depthAt dpf i) = some i) := by
  obtain ⟨hv, hp, hh, -⟩ := createIncremental_ok_inv params dpf h
  have hL : 1 ≤ params.length := by
    cases params with
    | nil => exact absurd rfl hv.1
    | cons p rest => simp
  have hlast : lastLds dpf = ldsAt dpf (params.length - 1) := by
    rw [lastLds, hp]
  refine ⟨?_, ?_, fun i hi => depthAt_lt_adj params dpf h i hi, ?_⟩
  · rw [tln_eq_depth_last params dpf h, hlast]
    exact depthAt_le_lds params dpf h _ (by omega)
  · intro hb
    rw [tln_eq_depth_last params dpf h, hlast,
      depthAt_eq params dpf h _ (by omega), if_neg (by omega), hb]
    have hpf : packingFactor 128 = 0 := by decide
    rw [hpf, Nat.sub_zero]
    by_cases h0 : params.length - 1 = 0
    · simp [h0]
    · rw [if_neg h0]
      have : ldsAt dpf (params.length - 1 - 1) < ldsAt dpf (params.length - 1) := by
        have := lds_lt_adj params dpf h (params.length - 1 - 1) (by omega)
        rwa [Nat.sub_add_cancel (by omega)] at this
      omega
  · intro i hi
    have hlen : dpf.hierarchy_to_tree.length = params.length := by
      rw [hh, hierarchyToTreeList, List.length_map, List.length_range]
    have := findIdx?_strictMono dpf.hierarchy_to_tree i (by omega)
      (fun j hj => depthAt_lt_of_lt params dpf h j i hj hi)
    rw [tree_to_hierarchy]
    exact this

/-- Witness for C9 at the concrete parameter list `[(1,8),(2,8)]`. -/
theorem tree_mapping_invariants_witness :
    CreateIncremental [⟨1, 8⟩, ⟨2, 8⟩] =
      .ok (⟨[⟨1, 8⟩, ⟨2, 8⟩], 2, [1, 2]⟩ : Dpf) ∧
    ((⟨[⟨1, 8⟩, ⟨2, 8⟩], 2, [1, 2]⟩ : Dpf).tree_levels_needed ≤
        lastLds ⟨[⟨1, 8⟩, ⟨2, 8⟩], 2, [1, 2]⟩ ∧
      (ebsAt ⟨[⟨1, 8⟩, ⟨2, 8⟩], 2, [1, 2]⟩ ([(⟨1, 8⟩ : DpfParameters), ⟨2, 8⟩].length - 1) = 128 →
        (⟨[⟨1, 8⟩, ⟨2, 8⟩], 2, [1, 2]⟩ : Dpf).tree_levels_needed =
          lastLds ⟨[⟨1, 8⟩, ⟨2, 8⟩], 2, [1, 2]⟩) ∧
      (∀ i, i + 1 < [(⟨1, 8⟩ : DpfParameters), ⟨2, 8⟩].length →
        depthAt ⟨[⟨1, 8⟩, ⟨2, 8⟩], 2, [1, 2]⟩ i <
          depthAt ⟨[⟨1, 8⟩, ⟨2, 8⟩], 2, [1, 2]⟩ (i + 1)) ∧
      (∀ i < [(⟨1, 8⟩ : DpfParameters), ⟨2, 8⟩].length,
        tree_to_hierarchy ⟨[⟨1, 8⟩, ⟨2, 8⟩], 2, [1, 2]⟩
          (depthAt ⟨[⟨1, 8⟩, ⟨2, 8⟩], 2, [1, 2]⟩ i) = some i)) :=
  ⟨by decide, tree_mapping_invariants [⟨1, 8⟩, ⟨2, 8⟩] _ (by decide)⟩

/-! ## C3 and C5: key-generation structure and pre-checks -/

theorem gki_ok_inv (dpf : Dpf) (prgs : Prgs) (s0A s0B alpha : Nat)
    (betas : List Nat) (kA kB : DpfKey)
    (h : GenerateKeysIncremental dpf prgs s0A s0B alpha betas = .ok (kA, kB)) :
    betas.length = dpf.parameters.length ∧ alpha < 2 ^ lastLds dpf ∧
    (∀ i < dpf.parameters.length, betas.getD i 0 < 2 ^ ebsAt dpf i) ∧
    kA = ⟨false, s0A, false, genCws dpf prgs alpha betas s0A s0B,
      vcFor dpf prgs alpha betas (dpf.parameters.length - 1)
        (genPair prgs alpha (lastLds dpf) s0A s0B dpf.tree_levels_needed)⟩ ∧
    kB = ⟨true, s0B, true, genCws dpf prgs alpha betas s0A s0B,
      vcFor dpf prgs alpha betas (dpf.parameters.length - 1)
        (genPair prgs alpha (lastLds dpf) s0A s0B dpf.tree_levels_needed)⟩ := by
  unfold GenerateKeysIncremental at h
  by_cases h1 : betas.length ≠ dpf.parameters.length
  · rw [if_pos h1] at h; cases h
  rw [if_neg h1] at h
  by_cases h2 : 2 ^ lastLds dpf ≤ alpha
  · rw [if_pos h2] at h; cases h
  rw [if_neg h2] at h
  by_cases h3 : (List.range dpf.parameters.length).any
      (fun i => decide (2 ^ ebsAt dpf i ≤ betas.getD i 0)) = true
  · rw [if_pos h3] at h; cases h
  rw [if_neg h3] at h
  cases h
  refine ⟨by omega, by omega, ?_, rfl, rfl⟩
  intro i hi
  by_contra hc
  apply h3
  rw [List.any_eq_true]
  exact ⟨i, List.mem_range.mpr hi, by simp only [decide_eq_true_eq]; omega⟩

/-- C3.  Correction-word equality: the two keys produced by a successful
`GenerateKeysIncremental` call have identical correction-word lists
(value corrections included) and identical last-level value correction;
they differ only in the party bit, the initial seed and the initial
control bit, which equals the party bit. -/
theorem keys_share_correction_words (dpf : Dpf) (prgs : Prgs)
    (s0A s0B alpha : Nat) (betas : List Nat) (kA kB : DpfKey)
    (h : GenerateKeysIncremental dpf prgs s0A s0B alpha betas = .ok (kA, kB)) :
    kA.correction_words = kB.correction_words ∧
    kA.last_level_value_correction = kB.last_level_value_correction ∧
    kA.party_bit = false ∧ kB.party_bit = true ∧
    kA.control_bit = kA.party_bit ∧ kB.control_bit = kB.party_bit ∧
    kA.seed = s0A ∧ kB.seed = s0B := by
  obtain ⟨-, -, -, hA, hB⟩ := gki_ok_inv dpf prgs s0A s0B alpha betas kA kB h
  subst hA; subst hB
  exact ⟨rfl, rfl, rfl, rfl, rfl, rfl, rfl, rfl⟩

/-- C5.  Key-generation domain pre-checks: `GenerateKeysIncremental`
returns `InvalidArgument` when the value vector's length differs from the
number of hierarchy levels, when `alpha` is outside the last level's
domain, or when some `beta_i` is outside its level's value domain; and the
single-level `GenerateKeys` returns `InvalidArgument` on a DPF constructed
with more than one parameter set. -/
theorem gki_prechecks (dpf : Dpf) (prgs : Prgs) (s0A s0B alpha beta : Nat)
    (betas : List Nat) :
    (betas.length ≠ dpf.parameters.length →
      GenerateKeysIncremental dpf prgs s0A s0B alpha betas = .error .invalidArgument) ∧
    (2 ^ lastLds dpf ≤ alpha →
      GenerateKeysIncremental dpf prgs s0A s0B alpha betas = .error .invalidArgument) ∧
    ((∃ i < dpf.parameters.length, 2 ^ ebsAt dpf i ≤ betas.getD i 0) →
      GenerateKeysIncremental dpf prgs s0A s0B alpha betas = .error .invalidArgument) ∧
    (1 < dpf.parameters.length →
      GenerateKeys dpf prgs s0A s0B alpha beta = .error .invalidArgument) := by
  refine ⟨fun h1 => ?_, fun h2 => ?_, fun h3 => ?_, fun h4 => ?_⟩
  · rw [GenerateKeysIncremental, if_pos h1]
  · unfold GenerateKeysIncremental
    by_cases h1 : betas.length ≠ dpf.parameters.length
    · rw [if_pos h1]
    · rw [if_neg h1, if_pos h2]
  · unfold GenerateKeysIncremental
    by_cases h1 : betas.length ≠ dpf.parameters.length
    · rw [if_pos h1]
    rw [if_neg h1]
    by_cases h2 : 2 ^ lastLds dpf ≤ alpha
    · rw [if_pos h2]
    rw [if_neg h2, if_pos ?_]
    obtain ⟨i, hi, hge⟩ := h3
    rw [List.any_eq_true]
    exact ⟨i, List.mem_range.mpr hi, by simp only [decide_eq_true_eq]; omega⟩
  · rw [GenerateKeys, if_pos (by omega)]

/-- Witness for C3: the concrete two-level instance used throughout. -/
theorem keys_share_correction_words_witness :
    GenerateKeysIncremental exDpf exPrgs 12 23 2 [3, 7] = .ok (exKeyA, exKeyB) ∧
    (exKeyA.correction_words = exKeyB.correction_words ∧
     exKeyA.last_level_value_correction = exKeyB.last_level_value_correction ∧
     exKeyA.party_bit = false ∧ exKeyB.party_bit = true ∧
     exKeyA.control_bit = exKeyA.party_bit ∧ exKeyB.control_bit = exKeyB.party_bit ∧
     exKeyA.seed = 12 ∧ exKeyB.seed = 23) :=
  ⟨by decide,
   keys_share_correction_words exDpf exPrgs 12 23 2 [3, 7] exKeyA exKeyB (by decide)⟩

/-- Witness for C5: each pre-check fires on a concrete violating input. -/
theorem gki_prechecks_witness :
    GenerateKeysIncremental exDpf exPrgs 12 23 2 [3] = .error .invalidArgument ∧
    GenerateKeysIncremental exDpf exPrgs 12 23 4 [3, 7] = .error .invalidArgument ∧
    GenerateKeysIncremental exDpf exPrgs 12 23 2 [3, 256] = .error .invalidArgument ∧
    GenerateKeys exDpf exPrgs 12 23 0 1 = .error .invalidArgument :=
  ⟨(gki_prechecks exDpf exPrgs 12 23 2 0 [3]).1 (by decide),
   (gki_prechecks exDpf exPrgs 12 23 4 0 [3, 7]).2.1 (by decide),
   (gki_prechecks exDpf exPrgs 12 23 2 0 [3, 256]).2.2.1 ⟨1, by decide, by decide⟩,
   (gki_prechecks exDpf exPrgs 12 23 0 1 [3, 7]).2.2.2 (by decide)⟩

/-! ## C6 and C7: EvaluateNext error kinds and atomicity -/

/-- C6.  `EvaluateNext` returns `FailedPrecondition` exactly when it is
called with non-empty prefixes on the first call (hierarchy level -1), or
when it is called again after the last hierarchy level has been
consumed; all other failures use a different error kind. -/
theorem evaluateNext_failedPrecondition_iff (dpf : Dpf) (prgs : Prgs)
    (bitsizeT : Nat) (pfxs : List Nat) (ctx : EvaluationContext) :
    (EvaluateNext dpf prgs bitsizeT pfxs ctx).1 = .error .failedPrecondition ↔
      ((dpf.parameters.length : Int) ≤ ctx.hierarchy_level + 1 ∨
        (ctx.hierarchy_level = -1 ∧ pfxs ≠ [])) := by
  unfold EvaluateNext
  by_cases h1 : (dpf.parameters.length : Int) ≤ ctx.hierarchy_level + 1
  · simp [h1]
  rw [if_neg h1]
  by_cases h2 : ctx.hierarchy_level = -1 ∧ pfxs ≠ []
  · simp [h2]
  rw [if_neg h2]
  by_cases h3 : bitsizeT ≠ ebsAt dpf (ctx.hierarchy_level + 1).toNat
  · simp [h3, h1, h2]
  rw [if_neg h3]
  by_cases h4 : pfxs.any
      (fun p => decide (2 ^ prevLds dpf (ctx.hierarchy_level + 1).toNat ≤ p)) = true
  · simp [h4, h1, h2]
  rw [if_neg h4]
  rcases hsel : selectPE ctx.storedEvals (effPfxs (ctx.hierarchy_level + 1).toNat pfxs) with
    _ | sel
  · simp [h1, h2]
  · simp [h1, h2]

/-- C7.  Atomicity on error: whenever `EvaluateNext` returns an error, the
evaluation context is unchanged (the key-generation and construction
operations take no mutable state, so `EvaluateNext` is the only operation
with observable state). -/
theorem evaluateNext_atomic (dpf : Dpf) (prgs : Prgs) (bitsizeT : Nat)
    (pfxs : List Nat) (ctx : EvaluationContext) (e : DpfError)
    (h : (EvaluateNext dpf prgs bitsizeT pfxs ctx).1 = .error e) :
    (EvaluateNext dpf prgs bitsizeT pfxs ctx).2 = ctx := by
  unfold EvaluateNext at h ⊢
  by_cases h1 : (dpf.parameters.length : Int) ≤ ctx.hierarchy_level + 1
  · simp [h1]
  rw [if_neg h1] at h ⊢
  by_cases h2 : ctx.hierarchy_level = -1 ∧ pfxs ≠ []
  · simp [h2]
  rw [if_neg h2] at h ⊢
  by_cases h3 : bitsizeT ≠ ebsAt dpf (ctx.hierarchy_level + 1).toNat
  · simp [h3]
  rw [if_neg h3] at h ⊢
  by_cases h4 : pfxs.any
      (fun p => decide (2 ^ prevLds dpf (ctx.hierarchy_level + 1).toNat ≤ p)) = true
  · simp [h4]
  rw [if_neg h4] at h ⊢
  rcases hsel : selectPE ctx.storedEvals (effPfxs (ctx.hierarchy_level + 1).toNat pfxs) with
    _ | sel
  · simp [hsel]
  · rw [hsel] at h
    simp at h

/-- Witness for C7: a concrete erroring call (non-empty prefixes on the
first call) leaves the context unchanged. -/
theorem evaluateNext_atomic_witness :
    (EvaluateNext exDpf exPrgs 8 [0] ⟨exKeyA, -1, [⟨0, 12, false⟩]⟩).1 =
      .error .failedPrecondition ∧
    (EvaluateNext exDpf exPrgs 8 [0] ⟨exKeyA, -1, [⟨0, 12, false⟩]⟩).2 =
      ⟨exKeyA, -1, [⟨0, 12, false⟩]⟩ :=
  ⟨by decide,
   evaluateNext_atomic exDpf exPrgs 8 [0] ⟨exKeyA, -1, [⟨0, 12, false⟩]⟩
     .failedPrecondition (by decide)⟩

/-! ## C10: expansion sizes -/

theorem expandNode_length (prgs : Prgs) (cws : List CorrectionWord) (st : Nat × Bool) :
    (expandNode prgs cws st).length = 2 ^ cws.length := by
  induction cws generalizing st with
  | nil => rfl
  | cons cw rest ih =>
    simp only [expandNode, List.length_append, ih, List.length_cons]
    ring

theorem flatMap_length_const {α β : Type} (f : α → List β) (c : Nat)
    (hf : ∀ a, (f a).length = c) (l : List α) :
    (l.flatMap f).length = l.length * c := by
  induction l with
  | nil => simp
  | cons a rest ih =>
    simp only [List.flatMap_cons, List.length_append, ih, hf, List.length_cons]
    ring

theorem selectPE_length (stored : List PartialEval) (ps : List Nat)
    (sel : List (Nat × Bool)) (h : selectPE stored ps = some sel) :
    sel.length = ps.length := by
  induction ps generalizing sel with
  | nil => cases h; rfl
  | cons p rest ih =>
    unfold selectPE at h
    rcases hf : stored.find? (fun pe => pe.node == p) with _ | pe <;> rw [hf] at h
    · cases h
    · rcases hr : selectPE stored rest with _ | sel' <;> rw [hr] at h
      · cases h
      · cases h
        simpa using ih sel' hr

theorem evaluateNext_ok_char (dpf : Dpf) (prgs : Prgs) (bitsizeT : Nat)
    (pfxs : List Nat) (ctx : EvaluationContext) (outs : List Nat) (i : Nat)
    (hieq : (ctx.hierarchy_level + 1).toNat = i)
    (h : (EvaluateNext dpf prgs bitsizeT pfxs ctx).1 = .ok outs) :
    ∃ sel,
      (ctx.hierarchy_level + 1 : Int) < dpf.parameters.length ∧
      ¬(ctx.hierarchy_level = -1 ∧ pfxs ≠ []) ∧
      bitsizeT = ebsAt dpf i ∧
      (∀ p ∈ pfxs, p < 2 ^ prevLds dpf i) ∧
      selectPE ctx.storedEvals (effPfxs i pfxs) = some sel ∧
      outs = (sel.flatMap (expandNode prgs
          ((ctx.key.correction_words.drop (startDepth dpf i)).take
            (depthAt dpf i - startDepth dpf i)))).flatMap
        (fun st => (List.range (2 ^ residueAt dpf i)).map
          (fun s => outputValue dpf prgs ctx.key i s st)) ∧
      (EvaluateNext dpf prgs bitsizeT pfxs ctx).2 =
        { ctx with
          hierarchy_level := ctx.hierarchy_level + 1,
          storedEvals :=
            if i + 1 < dpf.parameters.length then
              ((effPfxs i pfxs).zip sel).flatMap (fun ps =>
                ((expandNode prgs
                  ((ctx.key.correction_words.drop (startDepth dpf i)).take
                    (depthAt dpf i - startDepth dpf i)) ps.2).enum).map (fun em =>
                  ⟨ps.1 * 2 ^ (depthAt dpf i - startDepth dpf i) + em.1,
                    em.2.1, em.2.2⟩))
            else [] } := by
  subst hieq
  unfold EvaluateNext at h ⊢
  by_cases h1 : (dpf.parameters.length : Int) ≤ ctx.hierarchy_level + 1
  · rw [if_pos h1] at h; cases h
  rw [if_neg h1] at h ⊢
  by_cases h2 : ctx.hierarchy_level = -1 ∧ pfxs ≠ []
  · rw [if_pos h2] at h; cases h
  rw [if_neg h2] at h ⊢
  by_cases h3 : bitsizeT ≠ ebsAt dpf (ctx.hierarchy_level + 1).toNat
  · rw [if_pos h3] at h; cases h
  rw [if_neg h3] at h ⊢
  by_cases h4 : pfxs.any
      (fun p => decide (2 ^ prevLds dpf (ctx.hierarchy_level + 1).toNat ≤ p)) = true
  · rw [if_pos h4] at h; cases h
  rw [if_neg h4] at h ⊢
  rcases hsel : selectPE ctx.storedEvals
      (effPfxs (ctx.hierarchy_level + 1).toNat pfxs) with _ | sel <;> rw [hsel] at h
  · cases h
  · refine ⟨sel, by omega, h2, by omega, ?_, rfl, ?_, ?_⟩
    · intro p hp
      by_contra hc
      apply h4
      rw [List.any_eq_true]
      exact ⟨p, hp, by simp only [decide_eq_true_eq]; omega⟩
    · simpa using h.symm
    · rfl

theorem startDepth_le_depthAt (params : List DpfParameters) (dpf : Dpf)
    (hcr : CreateIncremental params = .ok dpf) (i : Nat) (hi : i < params.length) :
    startDepth dpf i ≤ depthAt dpf i := by
  rw [startDepth]
  by_cases h0 : i = 0
  · simp [h0]
  · rw [if_neg h0]
    have := depthAt_lt_of_lt params dpf hcr (i - 1) i (by omega) (by omega)
    omega

theorem startDepth_eq_prevLds (params : List DpfParameters) (dpf : Dpf)
    (hcr : CreateIncremental params = .ok dpf) (i : Nat) (hi : i < params.length) :
    startDepth dpf i = prevLds dpf i := by
  rw [startDepth, prevLds]
  by_cases h0 : i = 0
  · simp [h0]
  · rw [if_neg h0, if_neg h0,
      depthAt_eq params dpf hcr (i - 1) (by omega), if_pos (by omega)]

theorem evaluateNext_ok_length (prgs : Prgs) (params : List DpfParameters)
    (dpf : Dpf) (bitsizeT : Nat) (pfxs : List Nat) (ctx : EvaluationContext)
    (outs : List Nat) (i : Nat)
    (hcr : CreateIncremental params = .ok dpf)
    (hklen : ctx.key.correction_words.length = dpf.tree_levels_needed)
    (hieq : (ctx.hierarchy_level + 1).toNat = i)
    (h : (EvaluateNext dpf prgs bitsizeT pfxs ctx).1 = .ok outs) :
    outs.length = (effPfxs i pfxs).length * 2 ^ (ldsAt dpf i - prevLds dpf i) := by
  obtain ⟨sel, hiL, -, -, -, hsel, houts, -⟩ :=
    evaluateNext_ok_char dpf prgs bitsizeT pfxs ctx outs i hieq h
  have hplen : dpf.parameters.length = params.length :=
    congrArg List.length (createIncremental_ok_inv params dpf hcr).2.1
  have hLpos : 0 < params.length := by
    cases hpn : params with
    | nil => exact absurd hpn (createIncremental_ok_inv params dpf hcr).1.1
    | cons a b => simp
  have hiL' : i < dpf.parameters.length := by omega
  have hdle : depthAt dpf i ≤ dpf.tree_levels_needed :=
    depthAt_le_tln params dpf hcr i (by omega)
  have hsd : startDepth dpf i ≤ depthAt dpf i :=
    startDepth_le_depthAt params dpf hcr i (by omega)
  have hslice : ((ctx.key.correction_words.drop (startDepth dpf i)).take
      (depthAt dpf i - startDepth dpf i)).length =
      depthAt dpf i - startDepth dpf i := by
    rw [List.length_take, List.length_drop, hklen]
    omega
  have hsellen : sel.length = (effPfxs i pfxs).length :=
    selectPE_length _ _ _ hsel
  rw [houts]
  rw [flatMap_length_const _ (2 ^ (residueAt dpf i))
    (fun st => by rw [List.length_map, List.length_range])]
  rw [flatMap_length_const _ (2 ^ (depthAt dpf i - startDepth dpf i))
    (fun st => by rw [expandNode_length, hslice])]
  rw [hsellen, Nat.mul_assoc, ← Nat.pow_add]
  congr 2
  have hdlds : depthAt dpf i ≤ ldsAt dpf i := depthAt_le_lds params dpf hcr i (by omega)
  have hstart : startDepth dpf i = prevLds dpf i :=
    startDepth_eq_prevLds params dpf hcr i (by omega)
  rw [residueAt, ← hstart]
  omega

/-- C10.  Expansion size: `ExpandSeeds` on `n` partial evaluations and `c`
correction words returns exactly `n * 2^c` seeds and `n * 2^c` control
bits; consequently a successful `EvaluateNext` returns exactly
`|prefixes| * 2^{L_i - L_{i-1}}` output elements (with one implicit root
prefix on the first call, giving `2^{L_0}` elements). -/
theorem expansion_sizes (prgs : Prgs) (pe : DpfExpansion) (cws : List CorrectionWord)
    (n : Nat) (hn : pe.seeds.length = n) (hc : pe.control_bits.length = n) :
    (ExpandSeeds prgs pe cws).seeds.length = n * 2 ^ cws.length ∧
    (ExpandSeeds prgs pe cws).control_bits.length = n * 2 ^ cws.length ∧
    (∀ params dpf bitsizeT pfxs ctx outs i,
      CreateIncremental params = .ok dpf →
      ctx.key.correction_words.length = dpf.tree_levels_needed →
      (ctx.hierarchy_level + 1).toNat = i →
      (EvaluateNext dpf prgs bitsizeT pfxs ctx).1 = .ok outs →
      outs.length = (effPfxs i pfxs).length * 2 ^ (ldsAt dpf i - prevLds dpf i)) := by
  have hzip : (pe.seeds.zip pe.control_bits).length = n := by
    rw [List.length_zip, hn, hc, Nat.min_self]
  have hleaves := flatMap_length_const (expandNode prgs cws) (2 ^ cws.length)
    (fun st => expandNode_length prgs cws st) (pe.seeds.zip pe.control_bits)
  refine ⟨?_, ?_, ?_⟩
  · simp only [ExpandSeeds, List.length_map]
    rw [hleaves, hzip]
  · simp only [ExpandSeeds, List.length_map]
    rw [hleaves, hzip]
  · intro params dpf bitsizeT pfxs ctx outs i hcr hklen hieq h
    exact evaluateNext_ok_length prgs params dpf bitsizeT pfxs ctx outs i
      hcr hklen hieq h

/-- Witness for C10 at the concrete instance: two partial evaluations,
one correction word; and the two calls of the concrete run. -/
theorem expansion_sizes_witness :
    (ExpandSeeds exPrgs ⟨[5, 9], [false, true]⟩ [⟨99, true, false, none⟩]).seeds.length =
      2 * 2 ^ 1 ∧
    (ExpandSeeds exPrgs ⟨[5, 9], [false, true]⟩
      [⟨99, true, false, none⟩]).control_bits.length = 2 * 2 ^ 1 :=
  ⟨(expansion_sizes exPrgs ⟨[5, 9], [false, true]⟩ [⟨99, true, false, none⟩] 2
      (by decide) (by decide)).1,
   (expansion_sizes exPrgs ⟨[5, 9], [false, true]⟩ [⟨99, true, false, none⟩] 2
      (by decide) (by decide)).2.1⟩

/-! ## Key-generation tree invariant -/

theorem genPair_controls (prgs : Prgs) (alpha lastL s0A s0B : Nat) (t : Nat) :
    Bool.xor (genPair prgs alpha lastL s0A s0B t).1.2
      (genPair prgs alpha lastL s0A s0B t).2.2 = true := by
  induction t with
  | zero => rfl
  | succ t ih =>
    rcases hst : genPair prgs alpha lastL s0A s0B t with ⟨⟨sA, cA⟩, ⟨sB, cB⟩⟩
    rw [hst] at ih
    simp only at ih
    simp only [genPair, hst, stepSeed, mkCw]
    cases hb : aBitAt alpha lastL t <;>
      cases cA <;> cases cB <;> simp_all <;>
      cases lsb (prgs.right sA) <;> cases lsb (prgs.right sB) <;>
      cases lsb (prgs.left sA) <;> cases lsb (prgs.left sB) <;> rfl

theorem natXor_cancel (a b : Nat) : Nat.xor a (Nat.xor a b) = b := by
  show a ^^^ (a ^^^ b) = b
  rw [← Nat.xor_assoc, Nat.xor_self, Nat.zero_xor]

theorem natXor_cancel2 (a b : Nat) : Nat.xor b (Nat.xor a b) = a := by
  show b ^^^ (a ^^^ b) = a
  rw [Nat.xor_comm a b, ← Nat.xor_assoc, Nat.xor_self, Nat.zero_xor]

theorem stepSeed_congr (prgs : Prgs) (cw cw' : CorrectionWord) (b : Bool)
    (st : Nat × Bool) (h : cwCore cw = cwCore cw') :
    stepSeed prgs cw b st = stepSeed prgs cw' b st := by
  unfold cwCore at h
  unfold stepSeed
  rw [show cw.seed = cw'.seed from congrArg Prod.fst h,
    show cw.control_left = cw'.control_left from congrArg (fun p => p.2.1) h,
    show cw.control_right = cw'.control_right from congrArg (fun p => p.2.2) h]

theorem stepSeed_diverge (prgs : Prgs) (a : Bool) (stA stB : Nat × Bool)
    (h : Bool.xor stA.2 stB.2 = true) :
    stepSeed prgs (mkCw prgs a stA stB) (!a) stA =
    stepSeed prgs (mkCw prgs a stA stB) (!a) stB := by
  rcases stA with ⟨sA, cA⟩
  rcases stB with ⟨sB, cB⟩
  simp only at h
  cases a <;> cases cA <;> cases cB <;> simp_all [stepSeed, mkCw] <;>
    (try constructor) <;>
    first
      | rfl
      | exact natXor_cancel _ _
      | exact natXor_cancel2 _ _
      | exact (natXor_cancel _ _).symm
      | exact (natXor_cancel2 _ _).symm
      | (cases lsb (prgs.right sA) <;> cases lsb (prgs.right sB) <;> rfl)
      | (cases lsb (prgs.left sA) <;> cases lsb (prgs.left sB) <;> rfl)

theorem nodeState_invariant (prgs : Prgs) (alpha lastL s0A s0B : Nat) (n : Nat)
    (hα : alpha < 2 ^ lastL) (hn : n ≤ lastL)
    (kA kB : DpfKey)
    (hA0 : kA.seed = s0A) (hA1 : kA.control_bit = false)
    (hB0 : kB.seed = s0B) (hB1 : kB.control_bit = true)
    (hcwA : ∀ t, t < n → cwCore (kA.correction_words.getD t default) =
      cwCore (mkCw prgs (aBitAt alpha lastL t)
        (genPair prgs alpha lastL s0A s0B t).1 (genPair prgs alpha lastL s0A s0B t).2))
    (hcwB : ∀ t, t < n → cwCore (kB.correction_words.getD t default) =
      cwCore (mkCw prgs (aBitAt alpha lastL t)
        (genPair prgs alpha lastL s0A s0B t).1 (genPair prgs alpha lastL s0A s0B t).2))
    (t : Nat) (ht : t ≤ n) (v : Nat) (hv : v < 2 ^ t) :
    (v = alpha / 2 ^ (lastL - t) →
      nodeState prgs kA t v = (genPair prgs alpha lastL s0A s0B t).1 ∧
      nodeState prgs kB t v = (genPair prgs alpha lastL s0A s0B t).2) ∧
    (v ≠ alpha / 2 ^ (lastL - t) →
      nodeState prgs kA t v = nodeState prgs kB t v) := by
  induction t generalizing v with
  | zero =>
    constructor
    · intro hon
      constructor
      · show (kA.seed, kA.control_bit) = (s0A, false)
        rw [hA0, hA1]
      · show (kB.seed, kB.control_bit) = (s0B, true)
        rw [hB0, hB1]
    · intro hoff
      exfalso
      apply hoff
      have h0 : alpha / 2 ^ lastL = 0 := Nat.div_eq_of_lt hα
      rw [Nat.sub_zero, h0]
      omega
  | succ t ih =>
    have htn : t < n := by omega
    have htL : t + 1 ≤ lastL := by omega
    have hp2 : 2 ^ (t + 1) = 2 * 2 ^ t := by rw [pow_succ]; ring
    have hvp : v / 2 < 2 ^ t := by omega
    have ihv := ih (by omega) (v / 2) hvp
    have hL1 : lastL - t = (lastL - (t + 1)) + 1 := by omega
    have hxw : alpha / 2 ^ (lastL - t) = alpha / 2 ^ (lastL - (t + 1)) / 2 := by
      rw [hL1, pow_succ, Nat.div_div_eq_div_mul]
    have habit : (if aBitAt alpha lastL t then 1 else 0 : Nat) =
        alpha / 2 ^ (lastL - (t + 1)) % 2 := by
      have he : lastL - 1 - t = lastL - (t + 1) := by omega
      rw [aBitAt, he, lsb]
      rcases Nat.mod_two_eq_zero_or_one (alpha / 2 ^ (lastL - (t + 1))) with h | h <;>
        simp [h]
    have hvb : (if lsb v then 1 else 0 : Nat) = v % 2 := by
      rw [lsb]
      rcases Nat.mod_two_eq_zero_or_one v with h | h <;> simp [h]
    have hnodeA : nodeState prgs kA (t + 1) v =
        stepSeed prgs (mkCw prgs (aBitAt alpha lastL t)
          (genPair prgs alpha lastL s0A s0B t).1
          (genPair prgs alpha lastL s0A s0B t).2) (lsb v)
          (nodeState prgs kA t (v / 2)) := by
      show stepSeed prgs (kA.correction_words.getD t default) (lsb v) _ = _
      rw [stepSeed_congr prgs _ _ (lsb v) _ (hcwA t htn)]
    have hnodeB : nodeState prgs kB (t + 1) v =
        stepSeed prgs (mkCw prgs (aBitAt alpha lastL t)
          (genPair prgs alpha lastL s0A s0B t).1
          (genPair prgs alpha lastL s0A s0B t).2) (lsb v)
          (nodeState prgs kB t (v / 2)) := by
      show stepSeed prgs (kB.correction_words.getD t default) (lsb v) _ = _
      rw [stepSeed_congr prgs _ _ (lsb v) _ (hcwB t htn)]
    by_cases hpar : v / 2 = alpha / 2 ^ (lastL - t)
    · obtain ⟨hA, hB⟩ := ihv.1 hpar
      by_cases hbit : lsb v = aBitAt alpha lastL t
      · have hbv : (if lsb v then 1 else 0 : Nat) =
            (if aBitAt alpha lastL t then 1 else 0) := by rw [hbit]
        have hon : v = alpha / 2 ^ (lastL - (t + 1)) := by omega
        constructor
        · intro _
          constructor
          · rw [hnodeA, hA, hbit]
            show _ = (genPair prgs alpha lastL s0A s0B (t + 1)).1
            simp only [genPair]
          · rw [hnodeB, hB, hbit]
            show _ = (genPair prgs alpha lastL s0A s0B (t + 1)).2
            simp only [genPair]
        · intro hoff
          exact absurd hon hoff
      · have hoff : v ≠ alpha / 2 ^ (lastL - (t + 1)) := by
          intro hc
          apply hbit
          have hbv : (if lsb v then 1 else 0 : Nat) =
              (if aBitAt alpha lastL t then 1 else 0) := by omega
          cases hx : lsb v <;> cases hy : aBitAt alpha lastL t <;>
            rw [hx, hy] at hbv <;> first | rfl | simp at hbv
        refine ⟨fun hc => absurd hc hoff, fun _ => ?_⟩
        rw [hnodeA, hnodeB, hA, hB]
        have hnb : lsb v = !(aBitAt alpha lastL t) := by
          cases hx : lsb v <;> cases hy : aBitAt alpha lastL t <;>
            first
              | rfl
              | (exfalso; apply hbit; rw [hx, hy])
        rw [hnb]
        exact stepSeed_diverge prgs _ _ _ (genPair_controls prgs alpha lastL s0A s0B t)
    · have hoffp := ihv.2 hpar
      have hoff : v ≠ alpha / 2 ^ (lastL - (t + 1)) := by
        intro hc
        apply hpar
        rw [hxw, ← hc]
      refine ⟨fun hc => absurd hc hoff, fun _ => ?_⟩
      rw [hnodeA, hnodeB, hoffp]


/-! ## Value-correction slot arithmetic -/

theorem extractSlot_packSlots (b : Nat) (l : List Nat) (s : Nat) :
    extractSlot b s (packSlots b l) = (l.getD s 0) % 2 ^ b := by
  induction l generalizing s with
  | nil =>
    simp [extractSlot, packSlots, Nat.zero_div]
  | cons v rest ih =>
    cases s with
    | zero =>
      simp only [extractSlot, packSlots, List.foldr_cons, Nat.mul_zero, pow_zero,
        Nat.div_one, List.getD_cons_zero]
      rw [Nat.add_mul_mod_self_left, Nat.mod_mod_of_dvd _ dvd_rfl]
    | succ s =>
      have hsplit : 2 ^ (b * (s + 1)) = 2 ^ b * 2 ^ (b * s) := by
        rw [← pow_add]
        congr 1
        ring
      simp only [extractSlot, packSlots, List.foldr_cons, getD_cons_succ]
      rw [hsplit, ← Nat.div_div_eq_div_mul]
      have hdiv : (v % 2 ^ b + 2 ^ b * List.foldr (fun v acc => v % 2 ^ b + 2 ^ b * acc) 0 rest) / 2 ^ b =
          List.foldr (fun v acc => v % 2 ^ b + 2 ^ b * acc) 0 rest := by
        rw [Nat.add_mul_div_left _ _ (Nat.pos_pow_of_pos b (by omega)),
          Nat.div_eq_of_lt (Nat.mod_lt _ (Nat.pos_pow_of_pos b (by omega)))]
        omega
      rw [hdiv]
      exact ih s

theorem cvc_slot (prgs : Prgs) (b numSlots slotAlpha beta sA sB : Nat) (invert : Bool)
    (s : Nat) (hs : s < numSlots) :
    extractSlot b s (ComputeValueCorrection prgs b numSlots slotAlpha beta sA sB invert) =
      (if invert then
        (2 ^ b - ((if s = slotAlpha then beta else 0) +
          (2 ^ b - extractSlot b s (prgs.value sA)) +
          extractSlot b s (prgs.value sB)) % 2 ^ b) % 2 ^ b
      else
        ((if s = slotAlpha then beta else 0) +
          (2 ^ b - extractSlot b s (prgs.value sA)) +
          extractSlot b s (prgs.value sB)) % 2 ^ b) := by
  rw [ComputeValueCorrection, extractSlot_packSlots, getD_map_range _ _ _ hs]
  cases invert <;> simp [Nat.mod_mod_of_dvd _ dvd_rfl]

theorem genCws_length (dpf : Dpf) (prgs : Prgs) (alpha : Nat) (betas : List Nat)
    (s0A s0B : Nat) :
    (genCws dpf prgs alpha betas s0A s0B).length = dpf.tree_levels_needed := by
  rw [genCws, List.length_map, List.length_range]

theorem genCws_getD (dpf : Dpf) (prgs : Prgs) (alpha : Nat) (betas : List Nat)
    (s0A s0B : Nat) (t : Nat) (ht : t < dpf.tree_levels_needed) :
    (genCws dpf prgs alpha betas s0A s0B).getD t default =
      { mkCw prgs (aBitAt alpha (lastLds dpf) t)
          (genPair prgs alpha (lastLds dpf) s0A s0B t).1
          (genPair prgs alpha (lastLds dpf) s0A s0B t).2 with
        value_correction := (tree_to_hierarchy dpf t).map
          (fun j => vcFor dpf prgs alpha betas j
            (genPair prgs alpha (lastLds dpf) s0A s0B t)) } := by
  rw [genCws, getD_map_range _ _ _ ht]

theorem mod_eq_of_zmod (W u c : Nat) (hW : 0 < W) (hc : c < W)
    (h : ((u : ZMod W)) = (c : ZMod W)) : u % W = c := by
  haveI : NeZero W := ⟨by omega⟩
  have h2 := congrArg ZMod.val h
  rwa [ZMod.val_natCast, ZMod.val_natCast, Nat.mod_eq_of_lt hc] at h2

theorem out_sum_zero (W raw : Nat) (hW : 0 < W) (hraw : raw < W) :
    (raw + (W - raw) % W) % W = 0 := by
  rcases Nat.eq_zero_or_pos raw with h0 | hpos
  · subst h0
    rw [Nat.sub_zero, Nat.mod_self]
    simp
  · have h1 : (W - raw) % W = W - raw := Nat.mod_eq_of_lt (by omega)
    have h2 : raw + (W - raw) = W := by omega
    rw [h1, h2, Nat.mod_self]

theorem out_sum_share_A (W vA vB cw ind : Nat)
    (hW : 0 < W) (hvB : vB < W) (hind : ind < W)
    (hrel : ((cw : ZMod W)) = (ind : ZMod W) - vA + vB) :
    ((vA + cw) % W + (W - vB % W) % W) % W = ind := by
  haveI : NeZero W := ⟨by omega⟩
  apply mod_eq_of_zmod W _ ind hW hind
  have hsubB : ((W - vB % W : Nat) : ZMod W) = -((vB % W : Nat) : ZMod W) := by
    rw [Nat.cast_sub (Nat.le_of_lt (Nat.mod_lt _ hW)), ZMod.natCast_self, zero_sub]
  rw [Nat.cast_add, ZMod.natCast_mod, ZMod.natCast_mod, hsubB, ZMod.natCast_mod,
    Nat.cast_add, hrel]
  ring

theorem out_sum_share_B (W vA vB cw ind : Nat)
    (hW : 0 < W) (hvB : vB + cw < 2 * W) (hind : ind < W)
    (hrel : ((cw : ZMod W)) = -((ind : ZMod W) - vA + vB)) :
    (vA % W + (W - (vB + cw) % W) % W) % W = ind := by
  haveI : NeZero W := ⟨by omega⟩
  apply mod_eq_of_zmod W _ ind hW hind
  have hsubB : ((W - (vB + cw) % W : Nat) : ZMod W) = -(((vB + cw) % W : Nat) : ZMod W) := by
    rw [Nat.cast_sub (Nat.le_of_lt (Nat.mod_lt _ hW)), ZMod.natCast_self, zero_sub]
  rw [Nat.cast_add, ZMod.natCast_mod, ZMod.natCast_mod, hsubB, ZMod.natCast_mod,
    Nat.cast_add, hrel]
  ring

theorem outputBlockCorrection_eq (params : List DpfParameters) (dpf : Dpf)
    (prgs : Prgs) (s0A s0B alpha : Nat) (betas : List Nat) (kA kB : DpfKey)
    (hcr : CreateIncremental params = .ok dpf)
    (hgen : GenerateKeysIncremental dpf prgs s0A s0B alpha betas = .ok (kA, kB))
    (i : Nat) (hi : i < params.length) :
    outputBlockCorrection dpf kA i =
      vcFor dpf prgs alpha betas i
        (genPair prgs alpha (lastLds dpf) s0A s0B (depthAt dpf i)) ∧
    outputBlockCorrection dpf kB i =
      vcFor dpf prgs alpha betas i
        (genPair prgs alpha (lastLds dpf) s0A s0B (depthAt dpf i)) := by
  obtain ⟨-, -, -, hkA, hkB⟩ := gki_ok_inv dpf prgs s0A s0B alpha betas kA kB hgen
  have hplen : dpf.parameters.length = params.length :=
    congrArg List.length (createIncremental_ok_inv params dpf hcr).2.1
  have hcore : ∀ k : DpfKey,
      k.correction_words = genCws dpf prgs alpha betas s0A s0B →
      k.last_level_value_correction =
        vcFor dpf prgs alpha betas (dpf.parameters.length - 1)
          (genPair prgs alpha (lastLds dpf) s0A s0B dpf.tree_levels_needed) →
      outputBlockCorrection dpf k i =
        vcFor dpf prgs alpha betas i
          (genPair prgs alpha (lastLds dpf) s0A s0B (depthAt dpf i)) := by
    intro k hkc hkl
    rw [outputBlockCorrection, hkc, hkl]
    by_cases hlt : i + 1 < dpf.parameters.length
    · rw [if_pos hlt]
      rw [genCws_getD dpf prgs alpha betas s0A s0B (depthAt dpf i)
        (depthAt_lt_tln params dpf hcr i (by omega))]
      rw [show ({ mkCw prgs (aBitAt alpha (lastLds dpf) (depthAt dpf i))
          (genPair prgs alpha (lastLds dpf) s0A s0B (depthAt dpf i)).1
          (genPair prgs alpha (lastLds dpf) s0A s0B (depthAt dpf i)).2 with
          value_correction := (tree_to_hierarchy dpf (depthAt dpf i)).map
            (fun j => vcFor dpf prgs alpha betas j
              (genPair prgs alpha (lastLds dpf) s0A s0B (depthAt dpf i))) } :
          CorrectionWord).value_correction =
        (tree_to_hierarchy dpf (depthAt dpf i)).map
          (fun j => vcFor dpf prgs alpha betas j
            (genPair prgs alpha (lastLds dpf) s0A s0B (depthAt dpf i))) from rfl]
      rw [tth_depthAt params dpf hcr i hi]
      rfl
    · rw [if_neg hlt]
      have hieq : i = params.length - 1 := by omega
      have hdeq : depthAt dpf i = dpf.tree_levels_needed := by
        rw [hieq, ← tln_eq_depth_last params dpf hcr]
      rw [hdeq, hplen, hieq]
  exact ⟨hcore kA (by rw [hkA]) (by rw [hkA]), hcore kB (by rw [hkB]) (by rw [hkB])⟩

theorem evalPoint_share (params : List DpfParameters) (dpf : Dpf) (prgs : Prgs)
    (s0A s0B alpha : Nat) (betas : List Nat) (kA kB : DpfKey)
    (hcr : CreateIncremental params = .ok dpf)
    (hgen : GenerateKeysIncremental dpf prgs s0A s0B alpha betas = .ok (kA, kB))
    (i : Nat) (hi : i < params.length) (x : Nat) (hx : x < 2 ^ ldsAt dpf i) :
    (evalPoint dpf prgs kA i x + evalPoint dpf prgs kB i x) % 2 ^ ebsAt dpf i =
      if x = alphaPrefixAt dpf alpha i then betas.getD i 0 else 0 := by
  obtain ⟨hblen, hα, hβs, hkA, hkB⟩ := gki_ok_inv dpf prgs s0A s0B alpha betas kA kB hgen
  have hplen : dpf.parameters.length = params.length :=
    congrArg List.length (createIncremental_ok_inv params dpf hcr).2.1
  have hbpos : 0 < ebsAt dpf i := ebsAt_pos params dpf hcr i hi
  have hW : 0 < 2 ^ ebsAt dpf i := Nat.pos_pow_of_pos _ (by omega)
  have hβ : betas.getD i 0 < 2 ^ ebsAt dpf i := hβs i (by omega)
  have hdlds : depthAt dpf i ≤ ldsAt dpf i := depthAt_le_lds params dpf hcr i hi
  have hldsle : ldsAt dpf i ≤ lastLds dpf := lds_le_lastLds params dpf hcr i hi
  have htln : dpf.tree_levels_needed ≤ lastLds dpf := tln_le_lastLds params dpf hcr
  have hdtln : depthAt dpf i ≤ dpf.tree_levels_needed := depthAt_le_tln params dpf hcr i hi
  have hres : ldsAt dpf i = depthAt dpf i + residueAt dpf i := by
    rw [residueAt]; omega
  have hrpos : 0 < 2 ^ residueAt dpf i := Nat.pos_pow_of_pos _ (by omega)
  have hnode_lt : x / 2 ^ residueAt dpf i < 2 ^ depthAt dpf i := by
    rw [Nat.div_lt_iff_lt_mul hrpos, ← pow_add, ← hres]
    exact hx
  have hslot_lt : x % 2 ^ residueAt dpf i < 2 ^ residueAt dpf i := Nat.mod_lt _ hrpos
  have hexp : (lastLds dpf - ldsAt dpf i) + residueAt dpf i =
      lastLds dpf - depthAt dpf i := by
    rw [residueAt]; omega
  have hfact1 : alphaPrefixAt dpf alpha i / 2 ^ residueAt dpf i =
      alpha / 2 ^ (lastLds dpf - depthAt dpf i) := by
    rw [alphaPrefixAt, Nat.div_div_eq_div_mul, ← pow_add, hexp]
  have hcwfact : ∀ (k : DpfKey),
      k.correction_words = genCws dpf prgs alpha betas s0A s0B →
      ∀ t, t < dpf.tree_levels_needed →
      cwCore (k.correction_words.getD t default) =
        cwCore (mkCw prgs (aBitAt alpha (lastLds dpf) t)
          (genPair prgs alpha (lastLds dpf) s0A s0B t).1
          (genPair prgs alpha (lastLds dpf) s0A s0B t).2) := by
    intro k hk t ht
    rw [hk, genCws_getD dpf prgs alpha betas s0A s0B t ht]
    rfl
  have hinv := nodeState_invariant prgs alpha (lastLds dpf) s0A s0B
    dpf.tree_levels_needed hα htln kA kB (by rw [hkA]) (by rw [hkA])
    (by rw [hkB]) (by rw [hkB]) (hcwfact kA (by rw [hkA])) (hcwfact kB (by rw [hkB]))
    (depthAt dpf i) hdtln (x / 2 ^ residueAt dpf i) hnode_lt
  obtain ⟨hvcA, hvcB⟩ :=
    outputBlockCorrection_eq params dpf prgs s0A s0B alpha betas kA kB hcr hgen i hi
  have hpA : kA.party_bit = false := by rw [hkA]
  have hpB : kB.party_bit = true := by rw [hkB]
  have hEA : evalPoint dpf prgs kA i x =
      outputValue dpf prgs kA i (x % 2 ^ residueAt dpf i)
        (nodeState prgs kA (depthAt dpf i) (x / 2 ^ residueAt dpf i)) := rfl
  have hEB : evalPoint dpf prgs kB i x =
      outputValue dpf prgs kB i (x % 2 ^ residueAt dpf i)
        (nodeState prgs kB (depthAt dpf i) (x / 2 ^ residueAt dpf i)) := rfl
  by_cases hon : x / 2 ^ residueAt dpf i = alpha / 2 ^ (lastLds dpf - depthAt dpf i)
  · obtain ⟨hA, hB⟩ := hinv.1 hon
    have hctrl := genPair_controls prgs alpha (lastLds dpf) s0A s0B (depthAt dpf i)
    have hiff : x = alphaPrefixAt dpf alpha i ↔
        x % 2 ^ residueAt dpf i = alphaPrefixAt dpf alpha i % 2 ^ residueAt dpf i := by
      constructor
      · intro hc; rw [hc]
      · intro hc
        have hde : x / 2 ^ residueAt dpf i =
            alphaPrefixAt dpf alpha i / 2 ^ residueAt dpf i := by
          rw [hfact1]; exact hon
        calc x = 2 ^ residueAt dpf i * (x / 2 ^ residueAt dpf i) +
              x % 2 ^ residueAt dpf i := (Nat.div_add_mod x _).symm
          _ = 2 ^ residueAt dpf i *
                (alphaPrefixAt dpf alpha i / 2 ^ residueAt dpf i) +
              alphaPrefixAt dpf alpha i % 2 ^ residueAt dpf i := by rw [hde, hc]
          _ = alphaPrefixAt dpf alpha i := Nat.div_add_mod _ _
    rw [hEA, hEB, hA, hB, outputValue, outputValue, hpA, hpB, hvcA, hvcB]
    simp only [if_true, if_false, Bool.false_eq_true, Bool.true_eq_false]
    rw [show vcFor dpf prgs alpha betas i
        (genPair prgs alpha (lastLds dpf) s0A s0B (depthAt dpf i)) =
      ComputeValueCorrection prgs (ebsAt dpf i) (2 ^ residueAt dpf i)
        (alphaPrefixAt dpf alpha i % 2 ^ residueAt dpf i) (betas.getD i 0)
        (genPair prgs alpha (lastLds dpf) s0A s0B (depthAt dpf i)).1.1
        (genPair prgs alpha (lastLds dpf) s0A s0B (depthAt dpf i)).2.1
        (genPair prgs alpha (lastLds dpf) s0A s0B (depthAt dpf i)).2.2 from rfl]
    rw [cvc_slot prgs (ebsAt dpf i) (2 ^ residueAt dpf i)
      (alphaPrefixAt dpf alpha i % 2 ^ residueAt dpf i) (betas.getD i 0)
      (genPair prgs alpha (lastLds dpf) s0A s0B (depthAt dpf i)).1.1
      (genPair prgs alpha (lastLds dpf) s0A s0B (depthAt dpf i)).2.1
      (genPair prgs alpha (lastLds dpf) s0A s0B (depthAt dpf i)).2.2
      (x % 2 ^ residueAt dpf i) hslot_lt]
    rcases hgp : genPair prgs alpha (lastLds dpf) s0A s0B (depthAt dpf i) with
      ⟨⟨sA, cA⟩, ⟨sB, cB⟩⟩
    rw [hgp] at hctrl
    simp only at hctrl ⊢
    have hvA : extractSlot (ebsAt dpf i) (x % 2 ^ residueAt dpf i) (prgs.value sA) <
        2 ^ ebsAt dpf i := Nat.mod_lt _ hW
    have hvB : extractSlot (ebsAt dpf i) (x % 2 ^ residueAt dpf i) (prgs.value sB) <
        2 ^ ebsAt dpf i := Nat.mod_lt _ hW
    have hind : (if x % 2 ^ residueAt dpf i =
          alphaPrefixAt dpf alpha i % 2 ^ residueAt dpf i then betas.getD i 0 else 0) <
        2 ^ ebsAt dpf i := by
      by_cases hcs : x % 2 ^ residueAt dpf i =
          alphaPrefixAt dpf alpha i % 2 ^ residueAt dpf i
      · rw [if_pos hcs]; exact hβ
      · rw [if_neg hcs]; exact hW
    have htarget : (if x = alphaPrefixAt dpf alpha i then betas.getD i 0 else 0) =
        (if x % 2 ^ residueAt dpf i =
          alphaPrefixAt dpf alpha i % 2 ^ residueAt dpf i then betas.getD i 0 else 0) := by
      by_cases hcs : x = alphaPrefixAt dpf alpha i
      · rw [if_pos hcs, if_pos (hiff.mp hcs)]
      · rw [if_neg hcs, if_neg (fun hc => hcs (hiff.mpr hc))]
    rw [htarget]
    cases cA <;> cases cB <;> simp only [Bool.xor_false, Bool.xor_true,
      Bool.not_true, Bool.not_false] at hctrl
    · exact absurd hctrl (by simp)
    · -- cA = false, cB = true: B carries the control bit; correction inverted
      simp only [if_true, if_false, Bool.false_eq_true, Bool.true_eq_false]
      rw [Nat.add_zero]
      apply out_sum_share_B _ _ _ _ _ hW (by omega) hind
      rw [ZMod.natCast_mod, Nat.cast_sub (Nat.le_of_lt (Nat.mod_lt _ hW)),
        ZMod.natCast_self, zero_sub, ZMod.natCast_mod, Nat.cast_add, Nat.cast_add,
        Nat.cast_sub (Nat.le_of_lt hvA), ZMod.natCast_self]
      ring
    · -- cA = true, cB = false
      simp only [if_true, if_false, Bool.false_eq_true, Bool.true_eq_false]
      rw [Nat.add_zero]
      apply out_sum_share_A _ _ _ _ _ hW hvB hind
      rw [ZMod.natCast_mod, Nat.cast_add, Nat.cast_add,
        Nat.cast_sub (Nat.le_of_lt hvA), ZMod.natCast_self]
      ring
    · exact absurd hctrl (by simp)
  · have hxoff : x ≠ alphaPrefixAt dpf alpha i := by
      intro hc
      apply hon
      rw [hc, hfact1]
    rw [if_neg hxoff, hEA, hEB, hinv.2 hon, outputValue, outputValue, hpA, hpB]
    simp only [if_true, if_false, Bool.false_eq_true, Bool.true_eq_false]
    have hvceq : outputBlockCorrection dpf kA i = outputBlockCorrection dpf kB i := by
      rw [hvcA, hvcB]
    rw [hvceq]
    exact out_sum_zero _ _ hW (Nat.mod_lt _ hW)

/-! ## Expansion indexing -/

theorem lsb_two_mul (v : Nat) : lsb (2 * v) = false := by
  rw [lsb]
  simp [Nat.mul_mod_right]

theorem lsb_two_mul_add_one (v : Nat) : lsb (2 * v + 1) = true := by
  rw [lsb]
  simp [Nat.add_mul_mod_self_left]
  omega

theorem nodeState_step_false (prgs : Prgs) (key : DpfKey) (d v : Nat)
    (hd : d < key.correction_words.length) :
    stepSeed prgs (key.correction_words[d]) false (nodeState prgs key d v) =
    nodeState prgs key (d + 1) (2 * v) := by
  rw [show nodeState prgs key (d + 1) (2 * v) =
    stepSeed prgs (key.correction_words.getD d default) (lsb (2 * v))
      (nodeState prgs key d (2 * v / 2)) from rfl]
  rw [lsb_two_mul, Nat.mul_div_cancel_left _ (by omega : 0 < 2),
    List.getD_eq_getElem?_getD, List.getElem?_eq_getElem hd]
  rfl

theorem nodeState_step_true (prgs : Prgs) (key : DpfKey) (d v : Nat)
    (hd : d < key.correction_words.length) :
    stepSeed prgs (key.correction_words[d]) true (nodeState prgs key d v) =
    nodeState prgs key (d + 1) (2 * v + 1) := by
  rw [show nodeState prgs key (d + 1) (2 * v + 1) =
    stepSeed prgs (key.correction_words.getD d default) (lsb (2 * v + 1))
      (nodeState prgs key d ((2 * v + 1) / 2)) from rfl]
  rw [lsb_two_mul_add_one,
    show (2 * v + 1) / 2 = v from by omega,
    List.getD_eq_getElem?_getD, List.getElem?_eq_getElem hd]
  rfl

theorem expandNode_getD (prgs : Prgs) (key : DpfKey) (dlt : Nat) :
    ∀ d v m, d + dlt ≤ key.correction_words.length → m < 2 ^ dlt →
    (expandNode prgs ((key.correction_words.drop d).take dlt)
      (nodeState prgs key d v)).getD m default =
    nodeState prgs key (d + dlt) (v * 2 ^ dlt + m) := by
  induction dlt with
  | zero =>
    intro d v m hlen hm
    have hm0 : m = 0 := by omega
    subst hm0
    simp [expandNode]
  | succ dlt ih =>
    intro d v m hlen hm
    have hd : d < key.correction_words.length := by omega
    have hslice : (key.correction_words.drop d).take (dlt + 1) =
        key.correction_words[d] ::
          ((key.correction_words.drop (d + 1)).take dlt) := by
      rw [List.drop_eq_getElem_cons hd]
      rfl
    have hslen : ((key.correction_words.drop (d + 1)).take dlt).length = dlt := by
      rw [List.length_take, List.length_drop]
      omega
    have h2 : 2 ^ (dlt + 1) = 2 * 2 ^ dlt := by rw [pow_succ]; ring
    rw [hslice]
    rw [show expandNode prgs (key.correction_words[d] ::
        ((key.correction_words.drop (d + 1)).take dlt)) (nodeState prgs key d v) =
      expandNode prgs ((key.correction_words.drop (d + 1)).take dlt)
        (stepSeed prgs (key.correction_words[d]) false (nodeState prgs key d v)) ++
      expandNode prgs ((key.correction_words.drop (d + 1)).take dlt)
        (stepSeed prgs (key.correction_words[d]) true (nodeState prgs key d v))
      from rfl]
    rw [nodeState_step_false prgs key d v hd, nodeState_step_true prgs key d v hd]
    by_cases hml : m < 2 ^ dlt
    · rw [List.getD_append _ _ _ _ (by rw [expandNode_length, hslen]; exact hml)]
      rw [ih (d + 1) (2 * v) m (by omega) hml]
      have harg : 2 * v * 2 ^ dlt + m = v * 2 ^ (dlt + 1) + m := by
        rw [h2]; ring
      rw [show d + 1 + dlt = d + (dlt + 1) from by omega, harg]
    · rw [List.getD_append_right _ _ _ _
        (by rw [expandNode_length, hslen]; omega)]
      rw [expandNode_length, hslen]
      rw [ih (d + 1) (2 * v + 1) (m - 2 ^ dlt) (by omega) (by omega)]
      have he1 : (2 * v + 1) * 2 ^ dlt = 2 * v * 2 ^ dlt + 2 ^ dlt := by ring
      have he2 : v * 2 ^ (dlt + 1) = 2 * v * 2 ^ dlt := by rw [h2]; ring
      have harg : (2 * v + 1) * 2 ^ dlt + (m - 2 ^ dlt) =
          v * 2 ^ (dlt + 1) + m := by omega
      rw [show d + 1 + dlt = d + (dlt + 1) from by omega, harg]

theorem flatMap_getD_const {α β : Type} [Inhabited β] (f : α → List β) (c : Nat)
    (hf : ∀ a, (f a).length = c) (l : List α) (dα : α) :
    ∀ q r, q < l.length → r < c →
    (l.flatMap f).getD (q * c + r) default = (f (l.getD q dα)).getD r default := by
  induction l with
  | nil => intro q r hq hr; simp at hq
  | cons a rest ih =>
    intro q r hq hr
    cases q with
    | zero =>
      rw [Nat.zero_mul, Nat.zero_add, List.flatMap_cons,
        List.getD_append _ _ _ _ (by rw [hf]; exact hr)]
      rfl
    | succ q =>
      have hoff : (q + 1) * c + r - (f a).length = q * c + r := by
        have h1 : (q + 1) * c = q * c + c := by ring
        rw [hf]
        omega
      have hge : (f a).length ≤ (q + 1) * c + r := by
        have h1 : (q + 1) * c = q * c + c := by ring
        rw [hf]
        omega
      rw [List.flatMap_cons, List.getD_append_right _ _ _ _ hge, hoff]
      exact ih q r (by simpa using hq) hr

theorem selectPE_getD (prgs : Prgs) (key : DpfKey) (dep : Nat)
    (stored : List PartialEval) (ps : List Nat) (sel : List (Nat × Bool))
    (h : selectPE stored ps = some sel)
    (hinv : ∀ pe ∈ stored, (pe.seed, pe.control) = nodeState prgs key dep pe.node) :
    ∀ q, q < ps.length →
      sel.getD q default = nodeState prgs key dep (ps.getD q 0) := by
  induction ps generalizing sel with
  | nil => intro q hq; simp at hq
  | cons p rest ih =>
    unfold selectPE at h
    rcases hf : stored.find? (fun pe => pe.node == p) with _ | pe <;> rw [hf] at h
    · cases h
    · rcases hr : selectPE stored rest with _ | sel' <;> rw [hr] at h
      · cases h
      · cases h
        intro q hq
        cases q with
        | zero =>
          have hpe : pe.node = p := by
            have := List.find?_some hf
            simpa using this
          have hmem : pe ∈ stored := List.mem_of_find?_eq_some hf
          rw [List.getD_cons_zero, List.getD_cons_zero, ← hpe]
          exact hinv pe hmem
        | succ q =>
          rw [getD_cons_succ, getD_cons_succ]
          exact ih sel' hr q (by simpa using hq)

theorem evaluateNext_output_char (prgs : Prgs) (params : List DpfParameters)
    (dpf : Dpf) (key : DpfKey) (bitsizeT : Nat) (pfxs : List Nat)
    (ctx : EvaluationContext) (outs : List Nat) (i : Nat)
    (hcr : CreateIncremental params = .ok dpf)
    (hkey : ctx.key = key)
    (hklen : key.correction_words.length = dpf.tree_levels_needed)
    (hieq : (ctx.hierarchy_level + 1).toNat = i)
    (hinv : ∀ pe ∈ ctx.storedEvals,
      (pe.seed, pe.control) = nodeState prgs key (startDepth dpf i) pe.node)
    (h : (EvaluateNext dpf prgs bitsizeT pfxs ctx).1 = .ok outs)
    (j : Nat) (hj : j < outs.length) :
    outs.getD j 0 = evalPoint dpf prgs key i (pointOf dpf pfxs i j) ∧
    pointOf dpf pfxs i j < 2 ^ ldsAt dpf i ∧
    i < params.length := by
  obtain ⟨sel, hiL, hfirst, hbt, hbound, hsel, houts, hctx'⟩ :=
    evaluateNext_ok_char dpf prgs bitsizeT pfxs ctx outs i hieq h
  have hplen : dpf.parameters.length = params.length :=
    congrArg List.length (createIncremental_ok_inv params dpf hcr).2.1
  have hLpos : 0 < params.length := by
    cases hpn : params with
    | nil => exact absurd hpn (createIncremental_ok_inv params dpf hcr).1.1
    | cons a b => simp
  have hi : i < params.length := by omega
  have hstart : startDepth dpf i = prevLds dpf i :=
    startDepth_eq_prevLds params dpf hcr i hi
  have hsd : startDepth dpf i ≤ depthAt dpf i :=
    startDepth_le_depthAt params dpf hcr i hi
  have hdlds : depthAt dpf i ≤ ldsAt dpf i := depthAt_le_lds params dpf hcr i hi
  have hdtln : depthAt dpf i ≤ dpf.tree_levels_needed :=
    depthAt_le_tln params dpf hcr i hi
  have hrpos : 0 < 2 ^ residueAt dpf i := Nat.pos_pow_of_pos _ (by omega)
  have hDpos : 0 < 2 ^ (depthAt dpf i - startDepth dpf i) :=
    Nat.pos_pow_of_pos _ (by omega)
  have hw : ldsAt dpf i - prevLds dpf i =
      (depthAt dpf i - startDepth dpf i) + residueAt dpf i := by
    rw [residueAt, ← hstart]
    omega
  have hwsplit : 2 ^ (ldsAt dpf i - prevLds dpf i) =
      2 ^ (depthAt dpf i - startDepth dpf i) * 2 ^ residueAt dpf i := by
    rw [hw, pow_add]
  have houtlen : outs.length =
      (effPfxs i pfxs).length * 2 ^ (ldsAt dpf i - prevLds dpf i) :=
    evaluateNext_ok_length prgs params dpf bitsizeT pfxs ctx outs i hcr
      (by rw [hkey]; exact hklen) hieq h
  have hsellen : sel.length = (effPfxs i pfxs).length := selectPE_length _ _ _ hsel
  have hslice_len : ((key.correction_words.drop (startDepth dpf i)).take
      (depthAt dpf i - startDepth dpf i)).length =
      depthAt dpf i - startDepth dpf i := by
    rw [List.length_take, List.length_drop, hklen]
    omega
  -- index decomposition
  have hq1lt : j / 2 ^ residueAt dpf i <
      (effPfxs i pfxs).length * 2 ^ (depthAt dpf i - startDepth dpf i) := by
    rw [Nat.div_lt_iff_lt_mul hrpos, Nat.mul_assoc, ← hwsplit, ← houtlen]
    exact hj
  have hqlt : j / 2 ^ residueAt dpf i / 2 ^ (depthAt dpf i - startDepth dpf i) <
      (effPfxs i pfxs).length := by
    rw [Nat.div_lt_iff_lt_mul hDpos]
    exact hq1lt
  have hjq : j = (j / 2 ^ residueAt dpf i) * 2 ^ residueAt dpf i +
      j % 2 ^ residueAt dpf i := (Nat.div_add_mod' j _).symm
  have hq1m : j / 2 ^ residueAt dpf i =
      (j / 2 ^ residueAt dpf i / 2 ^ (depthAt dpf i - startDepth dpf i)) *
        2 ^ (depthAt dpf i - startDepth dpf i) +
      (j / 2 ^ residueAt dpf i) % 2 ^ (depthAt dpf i - startDepth dpf i) :=
    (Nat.div_add_mod' _ _).symm
  -- step 1: outer flatMap
  have hstep1 : outs.getD j 0 =
      ((List.range (2 ^ residueAt dpf i)).map (fun s =>
        outputValue dpf prgs ctx.key i s
          ((sel.flatMap (expandNode prgs
            ((ctx.key.correction_words.drop (startDepth dpf i)).take
              (depthAt dpf i - startDepth dpf i)))).getD
            (j / 2 ^ residueAt dpf i) default))).getD
        (j % 2 ^ residueAt dpf i) default := by
    conv_lhs => rw [houts, hjq]
    have := flatMap_getD_const (fun st => (List.range (2 ^ residueAt dpf i)).map
        (fun s => outputValue dpf prgs ctx.key i s st)) (2 ^ residueAt dpf i)
      (fun st => by rw [List.length_map, List.length_range])
      (sel.flatMap (expandNode prgs
        ((ctx.key.correction_words.drop (startDepth dpf i)).take
          (depthAt dpf i - startDepth dpf i)))) default
      (j / 2 ^ residueAt dpf i) (j % 2 ^ residueAt dpf i) ?_ (Nat.mod_lt _ hrpos)
    · exact this
    · rw [flatMap_length_const _ (2 ^ (depthAt dpf i - startDepth dpf i))
        (fun st => by rw [expandNode_length]; rw [hkey, hslice_len]), hsellen]
      exact hq1lt
  -- step 2: inner flatMap
  have hstep2 : (sel.flatMap (expandNode prgs
      ((ctx.key.correction_words.drop (startDepth dpf i)).take
        (depthAt dpf i - startDepth dpf i)))).getD
      (j / 2 ^ residueAt dpf i) default =
      (expandNode prgs ((key.correction_words.drop (startDepth dpf i)).take
        (depthAt dpf i - startDepth dpf i))
        (sel.getD (j / 2 ^ residueAt dpf i /
          2 ^ (depthAt dpf i - startDepth dpf i)) default)).getD
        ((j / 2 ^ residueAt dpf i) % 2 ^ (depthAt dpf i - startDepth dpf i))
        default := by
    conv_lhs => rw [hq1m]
    rw [hkey]
    exact flatMap_getD_const _ (2 ^ (depthAt dpf i - startDepth dpf i))
      (fun st => by rw [expandNode_length, hslice_len]) sel default
      _ _ (by rw [hsellen]; exact hqlt) (Nat.mod_lt _ hDpos)
  -- step 3: the selected state
  have hstep3 : sel.getD (j / 2 ^ residueAt dpf i /
      2 ^ (depthAt dpf i - startDepth dpf i)) default =
      nodeState prgs key (startDepth dpf i)
        ((effPfxs i pfxs).getD (j / 2 ^ residueAt dpf i /
          2 ^ (depthAt dpf i - startDepth dpf i)) 0) := by
    refine selectPE_getD prgs key (startDepth dpf i) ctx.storedEvals _ sel hsel hinv
      _ hqlt
  -- step 4: expansion
  have hstep4 : (expandNode prgs ((key.correction_words.drop (startDepth dpf i)).take
      (depthAt dpf i - startDepth dpf i))
      (nodeState prgs key (startDepth dpf i)
        ((effPfxs i pfxs).getD (j / 2 ^ residueAt dpf i /
          2 ^ (depthAt dpf i - startDepth dpf i)) 0))).getD
      ((j / 2 ^ residueAt dpf i) % 2 ^ (depthAt dpf i - startDepth dpf i))
      default =
      nodeState prgs key (depthAt dpf i)
        (((effPfxs i pfxs).getD (j / 2 ^ residueAt dpf i /
          2 ^ (depthAt dpf i - startDepth dpf i)) 0) *
          2 ^ (depthAt dpf i - startDepth dpf i) +
         (j / 2 ^ residueAt dpf i) % 2 ^ (depthAt dpf i - startDepth dpf i)) := by
    have := expandNode_getD prgs key (depthAt dpf i - startDepth dpf i)
      (startDepth dpf i)
      ((effPfxs i pfxs).getD (j / 2 ^ residueAt dpf i /
        2 ^ (depthAt dpf i - startDepth dpf i)) 0)
      ((j / 2 ^ residueAt dpf i) % 2 ^ (depthAt dpf i - startDepth dpf i))
      (by rw [hklen]; omega) (Nat.mod_lt _ hDpos)
    rw [show startDepth dpf i + (depthAt dpf i - startDepth dpf i) =
      depthAt dpf i from by omega] at this
    exact this
  -- the covered point and its arithmetic
  have hqw : j / 2 ^ (ldsAt dpf i - prevLds dpf i) =
      j / 2 ^ residueAt dpf i / 2 ^ (depthAt dpf i - startDepth dpf i) := by
    rw [Nat.div_div_eq_div_mul, hwsplit, Nat.mul_comm]
  have hpoint : pointOf dpf pfxs i j =
      ((effPfxs i pfxs).getD (j / 2 ^ residueAt dpf i /
        2 ^ (depthAt dpf i - startDepth dpf i)) 0) *
        2 ^ (ldsAt dpf i - prevLds dpf i) + j % 2 ^ (ldsAt dpf i - prevLds dpf i) := by
    rw [pointOf, hqw]
  have hjmodlt : j % 2 ^ (ldsAt dpf i - prevLds dpf i) <
      2 ^ (ldsAt dpf i - prevLds dpf i) :=
    Nat.mod_lt _ (Nat.pos_pow_of_pos _ (by omega))
  have hdvd : 2 ^ residueAt dpf i ∣ 2 ^ (ldsAt dpf i - prevLds dpf i) :=
    ⟨2 ^ (depthAt dpf i - startDepth dpf i), by rw [hwsplit, Nat.mul_comm]⟩
  have hxrearr : pointOf dpf pfxs i j =
      2 ^ residueAt dpf i * (((effPfxs i pfxs).getD (j / 2 ^ residueAt dpf i /
        2 ^ (depthAt dpf i - startDepth dpf i)) 0) *
        2 ^ (depthAt dpf i - startDepth dpf i)) +
      j % 2 ^ (ldsAt dpf i - prevLds dpf i) := by
    rw [hpoint, hwsplit]
    ring
  have hxmod : pointOf dpf pfxs i j % 2 ^ residueAt dpf i =
      j % 2 ^ residueAt dpf i := by
    rw [hxrearr, Nat.mul_add_mod, Nat.mod_mod_of_dvd j hdvd]
  have hxdiv : pointOf dpf pfxs i j / 2 ^ residueAt dpf i =
      ((effPfxs i pfxs).getD (j / 2 ^ residueAt dpf i /
        2 ^ (depthAt dpf i - startDepth dpf i)) 0) *
        2 ^ (depthAt dpf i - startDepth dpf i) +
      (j / 2 ^ residueAt dpf i) % 2 ^ (depthAt dpf i - startDepth dpf i) := by
    rw [hxrearr, Nat.mul_add_div hrpos]
    congr 1
    rw [show 2 ^ (ldsAt dpf i - prevLds dpf i) =
      2 ^ residueAt dpf i * 2 ^ (depthAt dpf i - startDepth dpf i) from by
        rw [hwsplit, Nat.mul_comm]]
    exact Nat.mod_mul_right_div_self j _ _
  have hprevle : prevLds dpf i ≤ ldsAt dpf i := by
    rw [← hstart]
    omega
  have hpfx_lt : (effPfxs i pfxs).getD (j / 2 ^ residueAt dpf i /
      2 ^ (depthAt dpf i - startDepth dpf i)) 0 < 2 ^ prevLds dpf i := by
    by_cases h0 : i = 0
    · subst h0
      rw [show effPfxs 0 pfxs = [0] from rfl]
      have hq0 : j / 2 ^ residueAt dpf 0 /
          2 ^ (depthAt dpf 0 - startDepth dpf 0) = 0 := by
        have := hqlt
        rw [show effPfxs 0 pfxs = [0] from rfl] at this
        simp at this
        omega
      rw [hq0, List.getD_cons_zero]
      exact Nat.pos_pow_of_pos _ (by omega)
    · rw [show effPfxs i pfxs = pfxs from by rw [effPfxs, if_neg h0]]
      apply hbound
      have hqlt' : j / 2 ^ residueAt dpf i /
          2 ^ (depthAt dpf i - startDepth dpf i) < pfxs.length := by
        have := hqlt
        rwa [show effPfxs i pfxs = pfxs from by rw [effPfxs, if_neg h0]] at this
      rw [List.getD_eq_getElem?_getD, List.getElem?_eq_getElem hqlt']
      exact List.getElem_mem hqlt'
  have hxlt : pointOf dpf pfxs i j < 2 ^ ldsAt dpf i := by
    have h1 : pointOf dpf pfxs i j <
        (((effPfxs i pfxs).getD (j / 2 ^ residueAt dpf i /
          2 ^ (depthAt dpf i - startDepth dpf i)) 0) + 1) *
        2 ^ (ldsAt dpf i - prevLds dpf i) := by
      rw [hpoint]
      have : (((effPfxs i pfxs).getD (j / 2 ^ residueAt dpf i /
          2 ^ (depthAt dpf i - startDepth dpf i)) 0) + 1) *
          2 ^ (ldsAt dpf i - prevLds dpf i) =
          ((effPfxs i pfxs).getD (j / 2 ^ residueAt dpf i /
            2 ^ (depthAt dpf i - startDepth dpf i)) 0) *
          2 ^ (ldsAt dpf i - prevLds dpf i) +
          2 ^ (ldsAt dpf i - prevLds dpf i) := by ring
      omega
    have h2 : (((effPfxs i pfxs).getD (j / 2 ^ residueAt dpf i /
        2 ^ (depthAt dpf i - startDepth dpf i)) 0) + 1) *
        2 ^ (ldsAt dpf i - prevLds dpf i) ≤
        2 ^ prevLds dpf i * 2 ^ (ldsAt dpf i - prevLds dpf i) :=
      Nat.mul_le_mul_right _ (by omega)
    have h3 : 2 ^ prevLds dpf i * 2 ^ (ldsAt dpf i - prevLds dpf i) =
        2 ^ ldsAt dpf i := by
      rw [← pow_add]
      congr 1
      omega
    omega
  refine ⟨?_, hxlt, hi⟩
  rw [hstep1, hstep2, hstep3, hstep4,
    getD_map_range _ _ _ (Nat.mod_lt _ hrpos), hkey]
  rw [show evalPoint dpf prgs key i (pointOf dpf pfxs i j) =
    outputValue dpf prgs key i (pointOf dpf pfxs i j % 2 ^ residueAt dpf i)
      (nodeState prgs key (depthAt dpf i)
        (pointOf dpf pfxs i j / 2 ^ residueAt dpf i)) from rfl]
  rw [hxmod, hxdiv]

theorem runCtxGo_inv (prgs : Prgs) (params : List DpfParameters) (dpf : Dpf)
    (key : DpfKey)
    (hcr : CreateIncremental params = .ok dpf)
    (hklen : key.correction_words.length = dpf.tree_levels_needed)
    (seq : List (List Nat)) :
    ∀ (k : Nat) (ctx ctx' : EvaluationContext),
      runCtxGo dpf prgs seq ctx = .ok ctx' →
      ctx.key = key →
      ctx.hierarchy_level = (k : Int) - 1 →
      (∀ pe ∈ ctx.storedEvals,
        (pe.seed, pe.control) = nodeState prgs key (startDepth dpf k) pe.node) →
      ctx'.key = key ∧
      ctx'.hierarchy_level = ((k + seq.length : Nat) : Int) - 1 ∧
      (∀ pe ∈ ctx'.storedEvals,
        (pe.seed, pe.control) =
          nodeState prgs key (startDepth dpf (k + seq.length)) pe.node) := by
  induction seq with
  | nil =>
    intro k ctx ctx' hrun hkey hhl hinv
    cases hrun
    exact ⟨hkey, by simpa using hhl, by simpa using hinv⟩
  | cons ps rest ih =>
    intro k ctx ctx' hrun hkey hhl hinv
    have hieq : (ctx.hierarchy_level + 1).toNat = k := by omega
    unfold runCtxGo at hrun
    rcases hEN : EvaluateNext dpf prgs
        (ebsAt dpf (ctx.hierarchy_level + 1).toNat) ps ctx with ⟨res, ctx1⟩
    rw [hEN] at hrun
    rcases res with e | outs
    · cases hrun
    · obtain ⟨sel, hiL, -, -, -, hsel, -, hctx1⟩ :=
        evaluateNext_ok_char dpf prgs _ ps ctx outs k hieq (by rw [hEN])
      rw [hEN] at hctx1
      simp only at hctx1
      have hplen : dpf.parameters.length = params.length :=
        congrArg List.length (createIncremental_ok_inv params dpf hcr).2.1
      have hLpos : 0 < params.length := by
        cases hpn : params with
        | nil => exact absurd hpn (createIncremental_ok_inv params dpf hcr).1.1
        | cons a b => simp
      have hk : k < params.length := by omega
      have hsd : startDepth dpf k ≤ depthAt dpf k :=
        startDepth_le_depthAt params dpf hcr k hk
      have hdtln : depthAt dpf k ≤ dpf.tree_levels_needed :=
        depthAt_le_tln params dpf hcr k hk
      have hslice_len : ((key.correction_words.drop (startDepth dpf k)).take
          (depthAt dpf k - startDepth dpf k)).length =
          depthAt dpf k - startDepth dpf k := by
        rw [List.length_take, List.length_drop, hklen]
        omega
      have hinv1 : ∀ pe ∈ ctx1.storedEvals,
          (pe.seed, pe.control) =
            nodeState prgs key (startDepth dpf (k + 1)) pe.node := by
        rw [hctx1]
        simp only
        rw [hkey]
        by_cases hlast : k + 1 < dpf.parameters.length
        · rw [if_pos hlast]
          intro pe hpe
          rw [List.mem_flatMap] at hpe
          obtain ⟨pr, hpr, hpe2⟩ := hpe
          obtain ⟨q, hq, hprq⟩ := List.mem_iff_getElem.mp hpr
          rw [List.mem_map] at hpe2
          obtain ⟨em, hem, hpee⟩ := hpe2
          obtain ⟨jj, hjj, hemj⟩ := List.mem_iff_getElem.mp hem
          have hqlen : q < (effPfxs k ps).length ∧ q < sel.length := by
            rw [List.length_zip] at hq
            omega
          have hprq' : pr = ((effPfxs k ps).getD q 0, sel.getD q default) := by
            rw [← hprq, List.getElem_zip]
            rw [List.getD_eq_getElem?_getD, List.getElem?_eq_getElem hqlen.1,
              List.getD_eq_getElem?_getD, List.getElem?_eq_getElem hqlen.2]
            rfl
          have hselq : sel.getD q default =
              nodeState prgs key (startDepth dpf k) ((effPfxs k ps).getD q 0) := by
            exact selectPE_getD prgs key (startDepth dpf k) ctx.storedEvals _ sel
              hsel hinv q hqlen.1
          have hjj' : jj < 2 ^ (depthAt dpf k - startDepth dpf k) := by
            rw [List.enum_length, expandNode_length, hslice_len] at hjj
            exact hjj
          have hemval : em = (jj,
              (expandNode prgs ((key.correction_words.drop (startDepth dpf k)).take
                (depthAt dpf k - startDepth dpf k)) pr.2).getD jj default) := by
            rw [← hemj, List.getElem_enum]
            congr 1
            rw [List.getD_eq_getElem?_getD, List.getElem?_eq_getElem
              (by rw [expandNode_length, hslice_len]; exact hjj')]
            rfl
          have hsd1 : startDepth dpf (k + 1) = depthAt dpf k := by
            rw [startDepth, if_neg (by omega)]
            rfl
          rw [← hpee, hemval, hprq']
          simp only
          rw [hselq, hsd1]
          have hstep := expandNode_getD prgs key (depthAt dpf k - startDepth dpf k)
            (startDepth dpf k) ((effPfxs k ps).getD q 0) jj
            (by rw [hklen]; omega) hjj'
          rw [show startDepth dpf k + (depthAt dpf k - startDepth dpf k) =
            depthAt dpf k from by omega] at hstep
          rw [hstep]
        · rw [if_neg hlast]
          intro pe hpe
          simp at hpe
      have hkey1 : ctx1.key = key := by
        rw [hctx1]
        exact hkey
      have hhl1 : ctx1.hierarchy_level = ((k + 1 : Nat) : Int) - 1 := by
        rw [hctx1]
        simp only
        omega
      have := ih (k + 1) ctx1 ctx' hrun hkey1 hhl1 hinv1
      refine ⟨this.1, ?_, ?_⟩
      · rw [this.2.1]
        congr 1
        simp only [List.length_cons]
        push_cast
        ring
      · have h3 := this.2.2
        rw [show k + 1 + rest.length = k + (rest.length + 1) from by omega] at h3
        simpa using h3

theorem cec_ok_inv (dpf : Dpf) (key : DpfKey) (ctx0 : EvaluationContext)
    (h : CreateEvaluationContext dpf key = .ok ctx0) :
    key.correction_words.length = dpf.tree_levels_needed ∧
    ctx0 = ⟨key, -1, [⟨0, key.seed, key.control_bit⟩]⟩ := by
  unfold CreateEvaluationContext at h
  split at h
  · cases h
  · split at h
    · cases h
    · cases h
      rename_i h1 h2
      exact ⟨by omega, rfl⟩

theorem runCtx_inv (prgs : Prgs) (params : List DpfParameters) (dpf : Dpf)
    (key : DpfKey) (seq : List (List Nat)) (ctx' : EvaluationContext)
    (hcr : CreateIncremental params = .ok dpf)
    (h : runCtx dpf prgs key seq = .ok ctx') :
    key.correction_words.length = dpf.tree_levels_needed ∧
    ctx'.key = key ∧ ctx'.hierarchy_level = (seq.length : Int) - 1 ∧
    (∀ pe ∈ ctx'.storedEvals,
      (pe.seed, pe.control) = nodeState prgs key (startDepth dpf seq.length) pe.node) := by
  unfold runCtx at h
  rcases hcec : CreateEvaluationContext dpf key with e | ctx0 <;> rw [hcec] at h
  · cases h
  · obtain ⟨hklen, hctx0⟩ := cec_ok_inv dpf key ctx0 hcec
    have hrun : runCtxGo dpf prgs seq ctx0 = .ok ctx' := h
    have h0 := runCtxGo_inv prgs params dpf key hcr hklen seq 0 ctx0 ctx' hrun
      (by rw [hctx0]) (by rw [hctx0]; rfl)
      (by
        rw [hctx0]
        intro pe hpe
        rw [List.mem_singleton] at hpe
        rw [hpe]
        rfl)
    refine ⟨hklen, h0.1, by simpa using h0.2.1, by simpa using h0.2.2⟩

/-- C1.  Additive share law: for every validated parameter list, every
`alpha` in the last level's domain and every value vector in range, the two
keys produced by `GenerateKeysIncremental` satisfy, at every hierarchy
level `i` reached by a successful sequence of `EvaluateNext` calls (one
per level, with arbitrary prefix lists) and for every output position `j`,
that the two parties' outputs covering the level-`i` point `x` sum, modulo
`2^{b_i}`, to `beta_i` when `x` is the length-`L_i` leading portion of
`alpha` and to `0` otherwise. -/
theorem evaluateNext_additive_share_law
    (params : List DpfParameters) (dpf : Dpf) (prgs : Prgs)
    (alpha : Nat) (betas : List Nat) (s0A s0B : Nat) (kA kB : DpfKey)
    (hcr : CreateIncremental params = .ok dpf)
    (hgen : GenerateKeysIncremental dpf prgs s0A s0B alpha betas = .ok (kA, kB))
    (seq : List (List Nat)) (i : Nat) (hseq : seq.length = i + 1)
    (yA yB : List Nat)
    (hA : runOutputs dpf prgs kA seq = .ok yA)
    (hB : runOutputs dpf prgs kB seq = .ok yB)
    (j : Nat) (hj : j < yA.length) :
    (yA.getD j 0 + yB.getD j 0) % 2 ^ ebsAt dpf i =
      if pointOf dpf (seq.getLastD []) i j = alphaPrefixAt dpf alpha i
      then betas.getD i 0 else 0 := by
  unfold runOutputs at hA hB
  rcases hrcA : runCtx dpf prgs kA seq.dropLast with e | ctxA <;> rw [hrcA] at hA
  · cases hA
  rcases hrcB : runCtx dpf prgs kB seq.dropLast with e | ctxB <;> rw [hrcB] at hB
  · cases hB
  simp only [Except.bind] at hA hB
  obtain ⟨hklenA, hkeyA, hhlA, hinvA⟩ := runCtx_inv prgs params dpf kA
    seq.dropLast ctxA hcr hrcA
  obtain ⟨hklenB, hkeyB, hhlB, hinvB⟩ := runCtx_inv prgs params dpf kB
    seq.dropLast ctxB hcr hrcB
  have hdrop : seq.dropLast.length = i := by
    rw [List.length_dropLast, hseq]
    omega
  rw [hdrop] at hhlA hhlB hinvA hinvB
  have hieqA : (ctxA.hierarchy_level + 1).toNat = i := by omega
  have hieqB : (ctxB.hierarchy_level + 1).toNat = i := by omega
  have houtA := evaluateNext_output_char prgs params dpf kA _ (seq.getLastD [])
    ctxA yA i hcr hkeyA hklenA hieqA hinvA hA j hj
  have hlenA := evaluateNext_ok_length prgs params dpf _ (seq.getLastD [])
    ctxA yA i hcr (by rw [hkeyA]; exact hklenA) hieqA hA
  have hlenB := evaluateNext_ok_length prgs params dpf _ (seq.getLastD [])
    ctxB yB i hcr (by rw [hkeyB]; exact hklenB) hieqB hB
  have hjB : j < yB.length := by
    rw [hlenB, ← hlenA]
    exact hj
  have houtB := evaluateNext_output_char prgs params dpf kB _ (seq.getLastD [])
    ctxB yB i hcr hkeyB hklenB hieqB hinvB hB j hjB
  rw [houtA.1, houtB.1]
  exact evalPoint_share params dpf prgs s0A s0B alpha betas kA kB hcr hgen
    i houtA.2.2 (pointOf dpf (seq.getLastD []) i j) houtA.2.1

/-- Witness for C1 at the concrete two-level instance: at hierarchy 1 the
output position 2 covers the point `x = 2`, which is `alpha`, and the two
parties' outputs 66 and 197 sum to `beta_1 = 7` mod 256. -/
theorem evaluateNext_additive_share_law_witness :
    (([188, 53, 66, 167] : List Nat).getD 2 0 +
      ([68, 203, 197, 89] : List Nat).getD 2 0) % 2 ^ ebsAt exDpf 1 =
      if pointOf exDpf (([[], [0, 1]] : List (List Nat)).getLastD []) 1 2 =
          alphaPrefixAt exDpf 2 1
      then ([3, 7] : List Nat).getD 1 0 else 0 :=
  evaluateNext_additive_share_law [⟨1, 8⟩, ⟨2, 8⟩] exDpf exPrgs 2 [3, 7] 12 23
    exKeyA exKeyB (by decide) (by decide) [[], [0, 1]] 1 (by decide)
    [188, 53, 66, 167] [68, 203, 197, 89] (by decide) (by decide) 2 (by decide)

/-! ## C8: context evolution -/

theorem runCtxGo_append (dpf : Dpf) (prgs : Prgs) (s1 s2 : List (List Nat)) :
    ∀ ctx, runCtxGo dpf prgs (s1 ++ s2) ctx =
      (runCtxGo dpf prgs s1 ctx).bind (runCtxGo dpf prgs s2) := by
  induction s1 with
  | nil => intro ctx; rfl
  | cons ps rest ih =>
    intro ctx
    show runCtxGo dpf prgs (ps :: (rest ++ s2)) ctx = _
    unfold runCtxGo
    rcases hEN : EvaluateNext dpf prgs
        (ebsAt dpf (ctx.hierarchy_level + 1).toNat) ps ctx with ⟨res, ctx1⟩
    rcases res with e | outs
    · rfl
    · exact ih ctx1

theorem context_evolution_amended (params : List DpfParameters) (dpf : Dpf)
    (prgs : Prgs) (key : DpfKey) (seq : List (List Nat)) (k : Nat)
    (ctx : EvaluationContext) (bitsizeT : Nat) (pfxs : List Nat) (outs : List Nat)
    (hcr : CreateIncremental params = .ok dpf)
    (hk : seq.length = k)
    (hrun : runCtx dpf prgs key seq = .ok ctx)
    (h : (EvaluateNext dpf prgs bitsizeT pfxs ctx).1 = .ok outs) :
    (EvaluateNext dpf prgs bitsizeT pfxs ctx).2.hierarchy_level =
      ctx.hierarchy_level + 1 ∧
    (∀ pe ∈ (EvaluateNext dpf prgs bitsizeT pfxs ctx).2.storedEvals,
      (pe.seed, pe.control) = nodeState prgs key (depthAt dpf k) pe.node) ∧
    (k + 1 < dpf.parameters.length →
      (EvaluateNext dpf prgs bitsizeT pfxs ctx).2.storedEvals.length =
        (effPfxs k pfxs).length * 2 ^ (depthAt dpf k - startDepth dpf k) ∧
      ∀ jdx, jdx < (EvaluateNext dpf prgs bitsizeT pfxs ctx).2.storedEvals.length →
        ((EvaluateNext dpf prgs bitsizeT pfxs ctx).2.storedEvals.getD jdx
          default).node =
          (effPfxs k pfxs).getD
            (jdx / 2 ^ (depthAt dpf k - startDepth dpf k)) 0 *
            2 ^ (depthAt dpf k - startDepth dpf k) +
          jdx % 2 ^ (depthAt dpf k - startDepth dpf k)) ∧
    (dpf.parameters.length ≤ k + 1 →
      (EvaluateNext dpf prgs bitsizeT pfxs ctx).2.storedEvals = []) := by
  obtain ⟨hklen, hkey, hhl, -⟩ := runCtx_inv prgs params dpf key seq ctx hcr hrun
  rw [hk] at hhl
  have hieq : (ctx.hierarchy_level + 1).toNat = k := by omega
  obtain ⟨sel, hiL, -, hbt, -, hsel, -, hctx'⟩ :=
    evaluateNext_ok_char dpf prgs bitsizeT pfxs ctx outs k hieq h
  have hplen : dpf.parameters.length = params.length :=
    congrArg List.length (createIncremental_ok_inv params dpf hcr).2.1
  have hLpos : 0 < params.length := by
    cases hpn : params with
    | nil => exact absurd hpn (createIncremental_ok_inv params dpf hcr).1.1
    | cons a b => simp
  have hkk : k < params.length := by omega
  have hsd : startDepth dpf k ≤ depthAt dpf k :=
    startDepth_le_depthAt params dpf hcr k hkk
  have hdtln : depthAt dpf k ≤ dpf.tree_levels_needed :=
    depthAt_le_tln params dpf hcr k hkk
  have hslice_len : ((key.correction_words.drop (startDepth dpf k)).take
      (depthAt dpf k - startDepth dpf k)).length =
      depthAt dpf k - startDepth dpf k := by
    rw [List.length_take, List.length_drop, hklen]
    omega
  have hsellen : sel.length = (effPfxs k pfxs).length := selectPE_length _ _ _ hsel
  have hDpos : 0 < 2 ^ (depthAt dpf k - startDepth dpf k) :=
    Nat.pos_pow_of_pos _ (by omega)
  -- the run extended by this call
  have hrun' : runCtx dpf prgs key (seq ++ [pfxs]) =
      .ok (EvaluateNext dpf prgs bitsizeT pfxs ctx).2 := by
    unfold runCtx at hrun ⊢
    rcases hcec : CreateEvaluationContext dpf key with e | ctx0 <;> rw [hcec] at hrun
    · cases hrun
    · have hrun2 : runCtxGo dpf prgs seq ctx0 = .ok ctx := hrun
      show runCtxGo dpf prgs (seq ++ [pfxs]) ctx0 = _
      rw [runCtxGo_append dpf prgs seq [pfxs] ctx0, hrun2]
      show runCtxGo dpf prgs [pfxs] ctx = _
      unfold runCtxGo
      rw [hieq, ← hbt]
      rcases hEN : EvaluateNext dpf prgs bitsizeT pfxs ctx with ⟨res, ctx1⟩
      rcases res with e | outs'
      · rw [hEN] at h
        cases h
      · rfl
  obtain ⟨-, -, -, hinv'⟩ := runCtx_inv prgs params dpf key (seq ++ [pfxs])
    (EvaluateNext dpf prgs bitsizeT pfxs ctx).2 hcr hrun'
  have hlen1 : (seq ++ [pfxs]).length = k + 1 := by
    rw [List.length_append, hk]
    rfl
  rw [hlen1] at hinv'
  have hsd1 : startDepth dpf (k + 1) = depthAt dpf k := by
    rw [startDepth, if_neg (by omega)]
    rfl
  rw [hsd1] at hinv'
  refine ⟨by rw [hctx'], hinv', ?_, ?_⟩
  · intro hlast
    rw [hctx']
    simp only
    rw [hkey, if_pos hlast]
    have hinner : ∀ pr : Nat × (Nat × Bool),
        (((expandNode prgs ((key.correction_words.drop (startDepth dpf k)).take
          (depthAt dpf k - startDepth dpf k)) pr.2).enum).map (fun em =>
          (⟨pr.1 * 2 ^ (depthAt dpf k - startDepth dpf k) + em.1,
            em.2.1, em.2.2⟩ : PartialEval))).length =
        2 ^ (depthAt dpf k - startDepth dpf k) := by
      intro pr
      rw [List.length_map, List.enum_length, expandNode_length, hslice_len]
    have hziplen : ((effPfxs k pfxs).zip sel).length = (effPfxs k pfxs).length := by
      rw [List.length_zip, hsellen, Nat.min_self]
    constructor
    · rw [flatMap_length_const _ (2 ^ (depthAt dpf k - startDepth dpf k))
        hinner, hziplen]
    · intro jdx hjdx
      rw [flatMap_length_const _ (2 ^ (depthAt dpf k - startDepth dpf k))
        hinner, hziplen] at hjdx
      have hq : jdx / 2 ^ (depthAt dpf k - startDepth dpf k) <
          (effPfxs k pfxs).length := by
        rw [Nat.div_lt_iff_lt_mul hDpos]
        exact hjdx
      have hjsplit : jdx = (jdx / 2 ^ (depthAt dpf k - startDepth dpf k)) *
          2 ^ (depthAt dpf k - startDepth dpf k) +
          jdx % 2 ^ (depthAt dpf k - startDepth dpf k) :=
        (Nat.div_add_mod' jdx _).symm
      conv_lhs => rw [hjsplit]
      rw [flatMap_getD_const _ (2 ^ (depthAt dpf k - startDepth dpf k)) hinner
        _ default _ _ (by rw [hziplen]; exact hq) (Nat.mod_lt _ hDpos)]
      have hzq : ((effPfxs k pfxs).zip sel).getD
          (jdx / 2 ^ (depthAt dpf k - startDepth dpf k)) default =
          ((effPfxs k pfxs).getD (jdx / 2 ^ (depthAt dpf k - startDepth dpf k)) 0,
           sel.getD (jdx / 2 ^ (depthAt dpf k - startDepth dpf k)) default) := by
        rw [List.getD_eq_getElem?_getD,
          List.getElem?_eq_getElem (by rw [hziplen]; exact hq)]
        rw [List.getElem_zip]
        rw [List.getD_eq_getElem?_getD, List.getElem?_eq_getElem hq,
          List.getD_eq_getElem?_getD,
          List.getElem?_eq_getElem (by rw [hsellen]; exact hq)]
        rfl
      rw [hzq]
      simp only
      have hm : jdx % 2 ^ (depthAt dpf k - startDepth dpf k) <
          ((expandNode prgs ((key.correction_words.drop (startDepth dpf k)).take
            (depthAt dpf k - startDepth dpf k))
            (sel.getD (jdx / 2 ^ (depthAt dpf k - startDepth dpf k))
              default)).enum).length := by
        rw [List.enum_length, expandNode_length, hslice_len]
        exact Nat.mod_lt _ hDpos
      rw [List.getD_eq_getElem?_getD,
        List.getElem?_eq_getElem (by rw [List.length_map]; exact hm)]
      rw [List.getElem_map, List.getElem_enum]
      rfl
  · intro hlast
    rw [hctx']
    simp only
    rw [if_neg (by omega)]

/-- C8 counterexample: on the concrete two-level instance, the first
`EvaluateNext` call succeeds with an empty supplied prefix list, yet the
partial evaluations stored by that call are keyed by the tree nodes `0`
and `1` — the level-`d_0` extensions of the (empty) supplied prefixes —
and not by the supplied prefixes themselves, which would leave the store
empty. -/
theorem context_evolution_counterexample :
    CreateEvaluationContext exDpf exKeyA =
      .ok ⟨exKeyA, -1, [⟨0, exKeyA.seed, exKeyA.control_bit⟩]⟩ ∧
    (EvaluateNext exDpf exPrgs 8 []
      ⟨exKeyA, -1, [⟨0, exKeyA.seed, exKeyA.control_bit⟩]⟩).1 = .ok [7, 189] ∧
    (EvaluateNext exDpf exPrgs 8 []
      ⟨exKeyA, -1, [⟨0, exKeyA.seed, exKeyA.control_bit⟩]⟩).2.storedEvals.map
        (fun pe => pe.node) = [0, 1] ∧
    ([0, 1] : List Nat) ≠ [] := by decide

/-- Witness for `context_evolution_amended`: the concrete two-level
instance after one successful call, evaluating prefixes `[0, 1]` at the
last hierarchy level. -/
theorem context_evolution_amended_witness :
    CreateIncremental [⟨1, 8⟩, ⟨2, 8⟩] = .ok exDpf ∧
    runCtx exDpf exPrgs exKeyA [[]] =
      .ok ⟨exKeyA, 0, [⟨0, 41, true⟩, ⟨1, 67, true⟩]⟩ ∧
    ((EvaluateNext exDpf exPrgs 8 [0, 1]
        ⟨exKeyA, 0, [⟨0, 41, true⟩, ⟨1, 67, true⟩]⟩).2.hierarchy_level =
      (⟨exKeyA, 0, [⟨0, 41, true⟩, ⟨1, 67, true⟩]⟩ :
          EvaluationContext).hierarchy_level + 1 ∧
    (∀ pe ∈ (EvaluateNext exDpf exPrgs 8 [0, 1]
        ⟨exKeyA, 0, [⟨0, 41, true⟩, ⟨1, 67, true⟩]⟩).2.storedEvals,
      (pe.seed, pe.control) = nodeState exPrgs exKeyA (depthAt exDpf 1) pe.node) ∧
    (1 + 1 < exDpf.parameters.length →
      (EvaluateNext exDpf exPrgs 8 [0, 1]
        ⟨exKeyA, 0, [⟨0, 41, true⟩, ⟨1, 67, true⟩]⟩).2.storedEvals.length =
        (effPfxs 1 [0, 1]).length * 2 ^ (depthAt exDpf 1 - startDepth exDpf 1) ∧
      ∀ jdx, jdx < (EvaluateNext exDpf exPrgs 8 [0, 1]
          ⟨exKeyA, 0, [⟨0, 41, true⟩, ⟨1, 67, true⟩]⟩).2.storedEvals.length →
        ((EvaluateNext exDpf exPrgs 8 [0, 1]
          ⟨exKeyA, 0, [⟨0, 41, true⟩, ⟨1, 67, true⟩]⟩).2.storedEvals.getD jdx
            default).node =
          (effPfxs 1 [0, 1]).getD
            (jdx / 2 ^ (depthAt exDpf 1 - startDepth exDpf 1)) 0 *
            2 ^ (depthAt exDpf 1 - startDepth exDpf 1) +
          jdx % 2 ^ (depthAt exDpf 1 - startDepth exDpf 1)) ∧
    (exDpf.parameters.length ≤ 1 + 1 →
      (EvaluateNext exDpf exPrgs 8 [0, 1]
        ⟨exKeyA, 0, [⟨0, 41, true⟩, ⟨1, 67, true⟩]⟩).2.storedEvals = [])) :=
  ⟨by decide, by decide,
   context_evolution_amended [⟨1, 8⟩, ⟨2, 8⟩] exDpf exPrgs exKeyA [[]] 1
     ⟨exKeyA, 0, [⟨0, 41, true⟩, ⟨1, 67, true⟩]⟩ 8 [0, 1] [188, 53, 66, 167]
     (by decide) rfl (by decide) (by decide)⟩

/-! ## C2: prefix consistency -/

theorem sum_map_range_zero (f : Nat → Nat) :
    ∀ n, (∀ r, r < n → f r = 0) → ((List.range n).map f).sum = 0 := by
  intro n
  induction n with
  | zero => intro hz; rfl
  | succ m ih =>
    intro hz
    rw [List.range_succ, List.map_append, List.sum_append,
      ih (fun r hr => hz r (by omega))]
    simp [hz m (by omega)]

theorem sum_map_range_single (f : Nat → Nat) (v : Nat) :
    ∀ n r0, r0 < n → f r0 = v → (∀ r, r < n → r ≠ r0 → f r = 0) →
      ((List.range n).map f).sum = v := by
  intro n
  induction n with
  | zero => intro r0 h0 hv hz; omega
  | succ m ih =>
    intro r0 h0 hv hz
    rw [List.range_succ, List.map_append, List.sum_append]
    by_cases hm : r0 = m
    · rw [sum_map_range_zero f m (fun r hr => hz r (by omega) (by omega))]
      subst hm
      simp [hv]
    · rw [ih r0 (by omega) hv (fun r hr hne => hz r (by omega) hne)]
      simp [hz m (by omega) (by omega)]

/-- C2 counterexample: on the concrete two-level instance (which satisfies
the claim's proviso `b_0 = b_1 = 8`), party A's level-0 output for prefix
`0` is `7`, while the sum of its level-1 outputs over the two extensions
of `0` is `(188 + 53) % 256 = 241`; and even the reconstructed (two-party)
level-0 value at prefix `1` is `3 = beta_0`, while the summed reconstructed
leaf values over the extensions of `1` give `7 = beta_1`: a single party's
output at an intermediate level is a fresh share, not the sum of its leaf
shares, and the sum law additionally needs `beta_i = beta_{L-1}`. -/
theorem prefix_consistency_counterexample :
    ebsAt exDpf 0 = ebsAt exDpf 1 ∧
    GenerateKeysIncremental exDpf exPrgs 12 23 2 [3, 7] = .ok (exKeyA, exKeyB) ∧
    runOutputs exDpf exPrgs exKeyA [[]] = .ok [7, 189] ∧
    runOutputs exDpf exPrgs exKeyA [[], [0, 1]] = .ok [188, 53, 66, 167] ∧
    (7 : Nat) ≠ (188 + 53) % 2 ^ 8 ∧
    runOutputs exDpf exPrgs exKeyB [[]] = .ok [249, 70] ∧
    runOutputs exDpf exPrgs exKeyB [[], [0, 1]] = .ok [68, 203, 197, 89] ∧
    (189 + 70) % 2 ^ 8 ≠ ((66 + 197) % 2 ^ 8 + (167 + 89) % 2 ^ 8) % 2 ^ 8 := by
  decide

/-- C2 (amended).  Prefix consistency for reconstructed values: for keys of
an incremental DPF, at every hierarchy level `i` whose element bitsize AND
value equal the last level's (`b_i = b_{L-1}` and `beta_i = beta_{L-1}`),
the reconstructed (two-party) value at a level-`i` prefix `p` equals,
modulo `2^{b_i}`, the sum of the reconstructed last-level values over all
full domain points extending `p`; and in general the reconstructed value
at level `i` is `beta_i` exactly at the length-`L_i` prefix of `alpha` and
`0` elsewhere. -/
theorem prefix_consistency_amended
    (params : List DpfParameters) (dpf : Dpf) (prgs : Prgs)
    (alpha : Nat) (betas : List Nat) (s0A s0B : Nat) (kA kB : DpfKey)
    (hcr : CreateIncremental params = .ok dpf)
    (hgen : GenerateKeysIncremental dpf prgs s0A s0B alpha betas = .ok (kA, kB))
    (i : Nat) (hi : i < params.length)
    (hb : ebsAt dpf i = ebsAt dpf (params.length - 1))
    (hbeta : betas.getD i 0 = betas.getD (params.length - 1) 0)
    (p : Nat) (hp : p < 2 ^ ldsAt dpf i) :
    ((evalPoint dpf prgs kA i p + evalPoint dpf prgs kB i p) % 2 ^ ebsAt dpf i =
      ((List.range (2 ^ (lastLds dpf - ldsAt dpf i))).map (fun r =>
        (evalPoint dpf prgs kA (params.length - 1)
            (p * 2 ^ (lastLds dpf - ldsAt dpf i) + r) +
          evalPoint dpf prgs kB (params.length - 1)
            (p * 2 ^ (lastLds dpf - ldsAt dpf i) + r)) %
          2 ^ ebsAt dpf (params.length - 1))).sum % 2 ^ ebsAt dpf i) ∧
    ((evalPoint dpf prgs kA i p + evalPoint dpf prgs kB i p) % 2 ^ ebsAt dpf i =
      if p = alphaPrefixAt dpf alpha i then betas.getD i 0 else 0) := by
  obtain ⟨hblen, hα, hβs, -, -⟩ := gki_ok_inv dpf prgs s0A s0B alpha betas kA kB hgen
  have hplen : dpf.parameters.length = params.length :=
    congrArg List.length (createIncremental_ok_inv params dpf hcr).2.1
  have hshare_i := evalPoint_share params dpf prgs s0A s0B alpha betas kA kB
    hcr hgen i hi p hp
  have hiL1 : params.length - 1 < params.length := by omega
  have hlast : ldsAt dpf (params.length - 1) = lastLds dpf := by
    rw [lastLds, hplen]
  have hldsle : ldsAt dpf i ≤ lastLds dpf := lds_le_lastLds params dpf hcr i hi
  have hDpos : 0 < 2 ^ (lastLds dpf - ldsAt dpf i) :=
    Nat.pos_pow_of_pos _ (by omega)
  have hβ1 : betas.getD (params.length - 1) 0 < 2 ^ ebsAt dpf (params.length - 1) :=
    hβs (params.length - 1) (by omega)
  have hαlast : alphaPrefixAt dpf alpha (params.length - 1) = alpha := by
    rw [alphaPrefixAt, hlast, Nat.sub_self, pow_zero, Nat.div_one]
  have hmapeq : (List.range (2 ^ (lastLds dpf - ldsAt dpf i))).map (fun r =>
        (evalPoint dpf prgs kA (params.length - 1)
            (p * 2 ^ (lastLds dpf - ldsAt dpf i) + r) +
          evalPoint dpf prgs kB (params.length - 1)
            (p * 2 ^ (lastLds dpf - ldsAt dpf i) + r)) %
          2 ^ ebsAt dpf (params.length - 1)) =
      (List.range (2 ^ (lastLds dpf - ldsAt dpf i))).map (fun r =>
        if p * 2 ^ (lastLds dpf - ldsAt dpf i) + r = alpha
        then betas.getD (params.length - 1) 0 else 0) := by
    apply List.map_congr_left
    intro r hr
    rw [List.mem_range] at hr
    have hx : p * 2 ^ (lastLds dpf - ldsAt dpf i) + r <
        2 ^ ldsAt dpf (params.length - 1) := by
      rw [hlast]
      calc p * 2 ^ (lastLds dpf - ldsAt dpf i) + r
          < p * 2 ^ (lastLds dpf - ldsAt dpf i) +
              2 ^ (lastLds dpf - ldsAt dpf i) := by omega
        _ = (p + 1) * 2 ^ (lastLds dpf - ldsAt dpf i) := by ring
        _ ≤ 2 ^ ldsAt dpf i * 2 ^ (lastLds dpf - ldsAt dpf i) :=
            Nat.mul_le_mul_right _ hp
        _ = 2 ^ lastLds dpf := by rw [← pow_add]; congr 1; omega
    have hsh := evalPoint_share params dpf prgs s0A s0B alpha betas kA kB
      hcr hgen (params.length - 1) hiL1 _ hx
    rw [hsh, hαlast]
  refine ⟨?_, hshare_i⟩
  rw [hmapeq]
  by_cases hcase : p = alphaPrefixAt dpf alpha i
  · have hpd : p = alpha / 2 ^ (lastLds dpf - ldsAt dpf i) := by
      rw [hcase, alphaPrefixAt]
    have hr0 : alpha % 2 ^ (lastLds dpf - ldsAt dpf i) <
        2 ^ (lastLds dpf - ldsAt dpf i) := Nat.mod_lt _ hDpos
    have hsum : ((List.range (2 ^ (lastLds dpf - ldsAt dpf i))).map (fun r =>
        if p * 2 ^ (lastLds dpf - ldsAt dpf i) + r = alpha
        then betas.getD (params.length - 1) 0 else 0)).sum =
        betas.getD (params.length - 1) 0 := by
      apply sum_map_range_single _ _ _ (alpha % 2 ^ (lastLds dpf - ldsAt dpf i))
        hr0
      · rw [if_pos]
        rw [hpd]
        exact Nat.div_add_mod' alpha _
      · intro r hr hne
        rw [if_neg]
        intro hcontra
        apply hne
        rw [hpd] at hcontra
        have hdm := Nat.div_add_mod' alpha (2 ^ (lastLds dpf - ldsAt dpf i))
        omega
    rw [hsum, hshare_i, if_pos hcase, hbeta, hb, Nat.mod_eq_of_lt hβ1]
  · have hsum0 : ((List.range (2 ^ (lastLds dpf - ldsAt dpf i))).map (fun r =>
        if p * 2 ^ (lastLds dpf - ldsAt dpf i) + r = alpha
        then betas.getD (params.length - 1) 0 else 0)).sum = 0 := by
      apply sum_map_range_zero
      intro r hr
      rw [if_neg]
      intro hcontra
      apply hcase
      rw [alphaPrefixAt, ← hcontra, Nat.mul_comm p (2 ^ (lastLds dpf - ldsAt dpf i)),
        Nat.mul_add_div hDpos, Nat.div_eq_of_lt hr, Nat.add_zero]
    rw [hsum0, hshare_i, if_neg hcase, Nat.zero_mod]

/-- Witness for `prefix_consistency_amended`: the concrete two-level
instance with the constant value vector `[7, 7]`, at level 0 and prefix 1
(the level-0 prefix of `alpha = 2`). -/
theorem prefix_consistency_amended_witness :
    CreateIncremental [⟨1, 8⟩, ⟨2, 8⟩] = .ok exDpf ∧
    GenerateKeysIncremental exDpf exPrgs 12 23 2 [7, 7] = .ok (exKeyA7, exKeyB7) ∧
    (((evalPoint exDpf exPrgs exKeyA7 0 1 + evalPoint exDpf exPrgs exKeyB7 0 1) %
        2 ^ ebsAt exDpf 0 =
      ((List.range (2 ^ (lastLds exDpf - ldsAt exDpf 0))).map (fun r =>
        (evalPoint exDpf exPrgs exKeyA7
            ([(⟨1, 8⟩ : DpfParameters), ⟨2, 8⟩].length - 1)
            (1 * 2 ^ (lastLds exDpf - ldsAt exDpf 0) + r) +
          evalPoint exDpf exPrgs exKeyB7
            ([(⟨1, 8⟩ : DpfParameters), ⟨2, 8⟩].length - 1)
            (1 * 2 ^ (lastLds exDpf - ldsAt exDpf 0) + r)) %
          2 ^ ebsAt exDpf ([(⟨1, 8⟩ : DpfParameters), ⟨2, 8⟩].length - 1))).sum %
        2 ^ ebsAt exDpf 0) ∧
    ((evalPoint exDpf exPrgs exKeyA7 0 1 + evalPoint exDpf exPrgs exKeyB7 0 1) %
        2 ^ ebsAt exDpf 0 =
      if 1 = alphaPrefixAt exDpf 2 0 then ([7, 7] : List Nat).getD 0 0 else 0)) :=
  ⟨by decide, by decide,
   prefix_consistency_amended [⟨1, 8⟩, ⟨2, 8⟩] exDpf exPrgs 2 [7, 7] 12 23
     exKeyA7 exKeyB7 (by decide) (by decide) 0 (by decide) (by decide)
     (by decide) 1 (by decide)⟩
